import Mathlib

/-!
Verification development for the PreSocial repository.

This file gives a shallow embedding, in Lean 4, of the state-consistency
subsystem of the PreSocial application:

* the in-process TTL cache backend and its key derivation
  (`apps/api/src/services/cache.ts` — `cacheGet`, `cacheSet`,
  `cacheInvalidate`, `generateSearchKey`, `simpleHash`);
* the persistent vote/bookmark ledger
  (`apps/api/src/services/storage.ts` — `setUserVote`, `getUserVote`,
  `saveVotes`/`loadVotes` serialization);
* the server vote endpoint (`social.post('/vote')`);
* the client-side optimistic vote and bookmark reconcilers
  (`VoteContext.vote`, `getAdjustedScore`, `BookmarkContext.toggleBookmark`);
* the flat-to-tree comment reconstruction (`buildCommentTree`).

JavaScript `Map`s are modelled as association lists with `Map.set`
replace-or-append semantics, JavaScript objects used as string-keyed
records are modelled as association lists as well, machine integers are
modelled as `Int` with explicit wrapping to 32 bits where the source
coerces (`simpleHash`), and `fetch` outcomes are modelled as an explicit
outcome parameter.  Strings are modelled as Lean `String`/`List Char`
(one `Char` per UTF-16 code unit of the source; the inputs of interest
are in the Basic Multilingual Plane, where the two coincide).
-/

/-- Vote direction, the source's string union `'up' | 'down'`. -/
inductive Dir where
  | up : Dir
  | down : Dir
deriving DecidableEq, Repr

/-! ## Cache service (`apps/api/src/services/cache.ts`), in-process backend

The in-process backend is the `memoryCache : Map<string, CacheEntry<unknown>>`
branch of `cacheGet`/`cacheSet`/`cacheDelete`/`cacheInvalidate` (the branch
taken when no Redis client is available).  `Date.now()` is modelled as an
explicit `now : Nat` parameter (milliseconds). -/

/-- `CacheEntry<T>` from `apps/api/src/types.ts`:
`{ data: T; timestamp: number; ttl: number }`. -/
structure CacheEntry (V : Type) where
  data : V
  timestamp : Nat
  ttl : Nat
deriving DecidableEq, Repr

/-- The in-process cache map: association list with JS `Map` semantics. -/
abbrev MemCache (V : Type) := List (String × CacheEntry V)

/-- JS `Map.get`: value of the (unique) matching key, if present. -/
def mapGet {V : Type} (c : MemCache V) (k : String) : Option (CacheEntry V) :=
  match c.find? (fun kv => kv.1 = k) with
  | none => none
  | some kv => some kv.2

/-- JS `Map.set`: replace the entry for an existing key in place, otherwise
append the new entry at the end. -/
def mapSet {V : Type} : MemCache V → String → CacheEntry V → MemCache V
  | [], k, e => [(k, e)]
  | (k', e') :: rest, k, e =>
    if k' = k then (k, e) :: rest else (k', e') :: mapSet rest k e

/-- JS `Map.delete`: remove the entry for the key. -/
def mapDelete {V : Type} (c : MemCache V) (k : String) : MemCache V :=
  c.filter (fun kv => decide (kv.1 ≠ k))

/-- `cleanupMemoryCache`: drop every expired entry
(`now > entry.timestamp + entry.ttl * 1000`). -/
def cleanupMemoryCache {V : Type} (now : Nat) (c : MemCache V) : MemCache V :=
  c.filter (fun kv => decide (¬ now > kv.2.timestamp + kv.2.ttl * 1000))

/-- `cacheGet` (in-process branch): prefix the key with `presocial:`, look it
up, and on an expired entry delete it and report a miss.  Returns the result
together with the cache state after the read (the source mutates the map). -/
def cacheGet {V : Type} (now : Nat) (c : MemCache V) (key : String) :
    Option V × MemCache V :=
  let prefixedKey := "presocial:" ++ key
  match mapGet c prefixedKey with
  | none => (none, c)
  | some entry =>
    if now > entry.timestamp + entry.ttl * 1000 then
      (none, mapDelete c prefixedKey)
    else
      (some entry.data, c)

/-- `cacheSet` (in-process branch): store
`{ data := value, timestamp := now, ttl := ttlSeconds }` under the prefixed
key, then run a cleanup pass when the map has grown past 1000 entries. -/
def cacheSet {V : Type} (now : Nat) (c : MemCache V) (key : String) (value : V)
    (ttlSeconds : Nat) : MemCache V :=
  let prefixedKey := "presocial:" ++ key
  let c' := mapSet c prefixedKey ⟨value, now, ttlSeconds⟩
  if c'.length > 1000 then cleanupMemoryCache now c' else c'

/-- `String.prototype.replace('*', '')`: remove the first occurrence of `'*'`
(a string pattern in JS `replace` replaces only the first match). -/
def removeFirstStarAux : List Char → List Char
  | [] => []
  | c :: rest => if c = '*' then rest else c :: removeFirstStarAux rest

/-- `pattern.replace('*', '')` on strings. -/
def removeFirstStar (s : String) : String :=
  ⟨removeFirstStarAux s.data⟩

/-- JS `String.prototype.startsWith`. -/
def keyStartsWith (k pre : String) : Bool :=
  pre.data.isPrefixOf k.data

/-- `cacheInvalidate` (in-process branch): delete every stored key that starts
with `("presocial:" ++ pattern).replace('*', '')`. -/
def cacheInvalidate {V : Type} (pattern : String) (c : MemCache V) : MemCache V :=
  let prefixedPattern := "presocial:" ++ pattern
  c.filter (fun kv => !(keyStartsWith kv.1 (removeFirstStar prefixedPattern)))

example : cacheGet 5 (cacheSet 5 ([] : MemCache Nat) "k" 42 10) "k" =
    (some 42, [("presocial:k", ⟨42, 5, 10⟩)]) := by decide

example : (cacheGet 10006 (cacheSet 5 ([] : MemCache Nat) "k" 42 10) "k").1 = none := by
  decide

example : cacheInvalidate "communities:*"
    ([("presocial:communities:a", ⟨1, 0, 1⟩), ("presocial:xcommunities:a", ⟨2, 0, 1⟩)] :
      MemCache Nat) = [("presocial:xcommunities:a", ⟨2, 0, 1⟩)] := by decide

/-! ### Association-list lemmas for the in-process cache -/

theorem mapGet_mapSet_self {V : Type} (c : MemCache V) (k : String) (e : CacheEntry V) :
    mapGet (mapSet c k e) k = some e := by
  induction c with
  | nil => simp [mapSet, mapGet, List.find?]
  | cons kv rest ih =>
    by_cases h : kv.1 = k
    · simp [mapSet, h, mapGet, List.find?]
    · cases kv with
      | mk k' e' =>
        simp only [mapSet]
        simp only at h
        rw [if_neg h]
        simpa [mapGet, List.find?, h] using ih

theorem mapGet_cons_eq {V : Type} (kv : String × CacheEntry V) (c : MemCache V) (k : String)
    (h : kv.1 = k) : mapGet (kv :: c) k = some kv.2 := by
  simp [mapGet, List.find?, h]

theorem mapGet_cons_ne {V : Type} (kv : String × CacheEntry V) (c : MemCache V) (k : String)
    (h : kv.1 ≠ k) : mapGet (kv :: c) k = mapGet c k := by
  simp [mapGet, List.find?, h]

theorem mapGet_filter_key {V : Type} (c : MemCache V) (k : String) (q : String → Bool) :
    mapGet (c.filter (fun kv => q kv.1)) k =
      (if q k then mapGet c k else none) := by
  induction c with
  | nil => simp [mapGet, List.find?]
  | cons kv rest ih =>
    by_cases hk : kv.1 = k
    · by_cases hq : q k
      · have hqkv : q kv.1 = true := by rw [hk]; exact hq
        simp only [List.filter, hqkv]
        rw [mapGet_cons_eq kv _ k hk, mapGet_cons_eq kv rest k hk, if_pos hq]
      · have hqkv : q kv.1 = false := by rw [hk]; exact Bool.of_not_eq_true hq
        simp only [List.filter, hqkv]
        rw [ih]
        simp [hq]
    · by_cases hq : q kv.1
      · simp only [List.filter, hq]
        rw [mapGet_cons_ne kv _ k hk, ih]
        by_cases hq' : q k
        · rw [if_pos hq', if_pos hq', mapGet_cons_ne kv rest k hk]
        · simp [hq']
      · have hqkv : q kv.1 = false := Bool.of_not_eq_true hq
        simp only [List.filter, hqkv]
        rw [ih]
        by_cases hq' : q k
        · rw [if_pos hq', if_pos hq', mapGet_cons_ne kv rest k hk]
        · simp [hq']

theorem mapGet_mapDelete_self {V : Type} (c : MemCache V) (k : String) :
    mapGet (mapDelete c k) k = none := by
  have h := mapGet_filter_key c k (fun k' => decide (k' ≠ k))
  simp only [mapDelete]
  rw [h]
  simp

theorem mapGet_filter_mapSet {V : Type} (c : MemCache V) (k : String) (e : CacheEntry V)
    (p : String × CacheEntry V → Bool) (hp : p (k, e) = true) :
    mapGet ((mapSet c k e).filter p) k = some e := by
  induction c with
  | nil =>
    simp only [mapSet, List.filter, hp]
    exact mapGet_cons_eq (k, e) [] k rfl
  | cons kv rest ih =>
    cases kv with
    | mk k' e' =>
      by_cases h : k' = k
      · subst h
        simp only [mapSet, if_pos rfl, List.filter, hp]
        exact mapGet_cons_eq (k', e) _ k' rfl
      · simp only [mapSet, if_neg h]
        by_cases hp' : p (k', e')
        · simp only [List.filter, hp']
          rw [mapGet_cons_ne (k', e') _ k h]
          exact ih
        · have : p (k', e') = false := Bool.of_not_eq_true hp'
          simp only [List.filter, this]
          exact ih

theorem mapGet_cacheSet_self {V : Type} (now : Nat) (c : MemCache V) (key : String) (v : V)
    (ttl : Nat) :
    mapGet (cacheSet now c key v ttl) ("presocial:" ++ key) = some ⟨v, now, ttl⟩ := by
  simp only [cacheSet]
  by_cases h : (mapSet c ("presocial:" ++ key) ⟨v, now, ttl⟩).length > 1000
  · rw [if_pos h]
    refine mapGet_filter_mapSet c _ _ _ ?_
    simp
  · rw [if_neg h]
    exact mapGet_mapSet_self c _ _

/-- C4.  On the in-process cache backend, `cacheGet` immediately after
`cacheSet key value ttl` returns `value`; and once `now > storedAt + ttl*1000`,
`cacheGet` returns `none` — the same result as a true miss — and evicts the
expired entry from the stored map on that read. -/
theorem cache_ttl_get_set_expiry :
    (∀ (V : Type) (now : Nat) (c : MemCache V) (key : String) (v : V) (ttl : Nat),
      (cacheGet now (cacheSet now c key v ttl) key).1 = some v)
    ∧ (∀ (V : Type) (now now' : Nat) (c : MemCache V) (key : String) (v : V) (ttl : Nat),
      now' > now + ttl * 1000 →
        (cacheGet now' (cacheSet now c key v ttl) key).1 = none ∧
        mapGet (cacheGet now' (cacheSet now c key v ttl) key).2 ("presocial:" ++ key) = none) := by
  constructor
  · intro V now c key v ttl
    simp only [cacheGet, mapGet_cacheSet_self]
    rw [if_neg (by omega)]
  · intro V now now' c key v ttl h
    simp only [cacheGet, mapGet_cacheSet_self]
    rw [if_pos h]
    exact ⟨rfl, mapGet_mapDelete_self _ _⟩

/-- Witness for `cache_ttl_get_set_expiry`: concrete expiry at
`now = 0`, `ttl = 1`, read at `now' = 2000 > 1000`. -/
theorem cache_ttl_get_set_expiry_witness :
    (cacheGet 2000 (cacheSet 0 ([] : MemCache Nat) "k" 42 1) "k").1 = none ∧
    mapGet (cacheGet 2000 (cacheSet 0 ([] : MemCache Nat) "k" 42 1) "k").2
      ("presocial:" ++ "k") = none :=
  cache_ttl_get_set_expiry.2 Nat 0 2000 [] "k" 42 1 (by omega)

/-! ### C5: prefix invalidation -/

/-- Modelled from the spec: the prefix described by the claim, "the literal
prefix obtained by stripping a trailing wildcard marker from
`prefixPattern`" — remove a `'*'` only when it is the last character.
This definition follows the claim's words and is compared against the
source's `pattern.replace('*', '')`. -/
def stripTrailingStar (s : String) : String :=
  match s.data.getLast? with
  | some c => if c = '*' then ⟨s.data.dropLast⟩ else s
  | none => s

/-- Counterexample to C5 as stated: for the pattern `"*x"` the wildcard is not
trailing, so the claim's prefix is `"*x"` itself and the key `"x1"` does not
start with it — yet `cacheInvalidate` deletes the entry, because the source
removes the first `'*'` anywhere in the pattern, not only a trailing one. -/
theorem cacheInvalidate_not_trailing_strip :
    cacheInvalidate "*x" ([("presocial:x1", (⟨0, 0, 1⟩ : CacheEntry Nat))]) = [] ∧
    keyStartsWith "x1" (stripTrailingStar "*x") = false := by
  constructor
  · decide
  · decide

theorem keyStartsWith_append (a k pre : String) :
    keyStartsWith (a ++ k) (a ++ pre) = keyStartsWith k pre := by
  simp only [keyStartsWith, String.data_append]
  rw [Bool.eq_iff_iff, List.isPrefixOf_iff_prefix, List.isPrefixOf_iff_prefix]
  exact List.prefix_append_right_inj a.data

/-- C5 (amended).  On the in-process backend, `cacheInvalidate prefixPattern`
deletes exactly the stored keys that start with the prefix obtained by
removing the *first* occurrence of the wildcard `'*'` from `prefixPattern`
(for patterns whose only wildcard is trailing this coincides with stripping
the trailing wildcard); in particular `cacheInvalidate "communities:*"`
removes exactly the stored keys literally prefixed `communities:`. -/
theorem cacheInvalidate_prefix_exact :
    (∀ (V : Type) (pattern : String) (c : MemCache V) (k : String),
      mapGet (cacheInvalidate pattern c) k =
        (if keyStartsWith k (removeFirstStar ("presocial:" ++ pattern)) then none
         else mapGet c k))
    ∧ (∀ (V : Type) (c : MemCache V) (k : String),
      mapGet (cacheInvalidate "communities:*" c) ("presocial:" ++ k) =
        (if keyStartsWith k "communities:" then none
         else mapGet c ("presocial:" ++ k))) := by
  have main : ∀ (V : Type) (pattern : String) (c : MemCache V) (k : String),
      mapGet (cacheInvalidate pattern c) k =
        (if keyStartsWith k (removeFirstStar ("presocial:" ++ pattern)) then none
         else mapGet c k) := by
    intro V pattern c k
    have h := mapGet_filter_key c k
      (fun k' => !(keyStartsWith k' (removeFirstStar ("presocial:" ++ pattern))))
    simp only [cacheInvalidate]
    rw [h]
    by_cases hs : keyStartsWith k (removeFirstStar ("presocial:" ++ pattern))
    · simp [hs]
    · simp [Bool.of_not_eq_true hs]
  refine ⟨main, ?_⟩
  intro V c k
  have h := main V "communities:*" c ("presocial:" ++ k)
  rw [h]
  have hrw : removeFirstStar ("presocial:" ++ "communities:*") =
      "presocial:" ++ "communities:" := by decide
  rw [hrw, keyStartsWith_append]

/-! ## Search-key derivation (`generateSearchKey` / `simpleHash`)

`generateSearchKey(query, options)` lower-cases, trims and
whitespace-collapses the query, serializes the options record with
`JSON.stringify` (which writes fields in the order they were supplied),
concatenates, and hashes with a 32-bit rolling hash rendered in base 36. -/

/-- The whitespace class of the regex `\s` restricted to the characters that
occur in practice (space, tab, line feed, carriage return, vertical tab,
form feed). -/
def isWs (c : Char) : Bool :=
  c == ' ' || c == '\t' || c == '\n' || c == '\r' || c == Char.ofNat 11 || c == Char.ofNat 12

/-- `String.prototype.trim`, leading part: drop leading whitespace. -/
def ltrim (l : List Char) : List Char :=
  l.dropWhile isWs

/-- `String.prototype.trim`, trailing part: drop trailing whitespace. -/
def rtrim (l : List Char) : List Char :=
  (l.reverse.dropWhile isWs).reverse

/-- `String.prototype.replace(/\s+/g, ' ')`: each maximal whitespace run
becomes a single space.  The flag records whether the previous character was
part of a whitespace run already replaced. -/
def collapseWs : Bool → List Char → List Char
  | _, [] => []
  | prevWs, c :: rest =>
    if isWs c then
      if prevWs then collapseWs true rest else ' ' :: collapseWs true rest
    else c :: collapseWs false rest

/-- `query.toLowerCase().trim().replace(/\s+/g, ' ')` (ASCII case mapping,
which is the case mapping JS applies on the inputs of interest). -/
def normalizeQueryChars (q : List Char) : List Char :=
  collapseWs false (rtrim (ltrim (q.map Char.toLower)))

/-- Values that occur in the `options` record at the call sites
(`{ limit, page, sort, community }`): strings, numbers, booleans. -/
inductive JVal where
  | s (v : String) : JVal
  | n (v : Int) : JVal
  | b (v : Bool) : JVal
deriving DecidableEq, Repr

/-- One serialized field of `JSON.stringify` (string escaping is not needed
for the field values that occur). -/
def jvalToString : JVal → String
  | .s v => "\"" ++ v ++ "\""
  | .n v => toString v
  | .b v => if v then "true" else "false"

/-- `options ? JSON.stringify(options) : ''` — `JSON.stringify` writes the
record's fields in the order they were supplied. -/
def serializeOpts : Option (List (String × JVal)) → String
  | none => ""
  | some l =>
    "\x7b" ++ String.intercalate "," (l.map (fun kv => "\"" ++ kv.1 ++ "\":" ++ jvalToString kv.2))
      ++ "\x7d"

/-- JS `ToInt32`: wrap an integer to the signed 32-bit range. -/
def toInt32 (x : Int) : Int :=
  (x + 2 ^ 31) % 2 ^ 32 - 2 ^ 31

/-- One step of `simpleHash`: `hash = ((hash << 5) - hash) + char; hash &= hash`.
`hash << 5` coerces to 32 bits and shifts (wrapping), the subtraction and
addition are exact, and `hash & hash` coerces the result back to 32 bits. -/
def hashStep (h : Int) (c : Char) : Int :=
  toInt32 (toInt32 (h * 32) - h + c.toNat)

/-- The rolling hash loop of `simpleHash`, starting from 0. -/
def hashChars (l : List Char) : Int :=
  l.foldl hashStep 0

/-- Digit characters of `Number.prototype.toString(36)`: `0-9` then `a-z`. -/
def digit36 (n : Nat) : Char :=
  if n < 10 then Char.ofNat (48 + n) else Char.ofNat (87 + n)

/-- Base-36 digits of `n`, most significant first (`fuel ≥ n` suffices). -/
def toBase36Aux : Nat → Nat → List Char → List Char
  | 0, n, acc => digit36 (n % 36) :: acc
  | fuel + 1, n, acc =>
    if n < 36 then digit36 n :: acc
    else toBase36Aux fuel (n / 36) (digit36 (n % 36) :: acc)

/-- `Number.prototype.toString(36)` for a nonnegative integer. -/
def toBase36 (n : Nat) : List Char :=
  toBase36Aux n n []

/-- `simpleHash`: rolling 32-bit hash, absolute value, base-36 rendering. -/
def simpleHash (str : String) : String :=
  ⟨toBase36 (hashChars str.data).natAbs⟩

/-- `generateSearchKey`: normalize the query, serialize the options,
concatenate with `":"`, hash, and prefix with `search:`. -/
def generateSearchKey (query : String) (options : Option (List (String × JVal))) : String :=
  let normalizedQuery : String := ⟨normalizeQueryChars query.data⟩
  let optionsStr := serializeOpts options
  let hashStr := simpleHash (normalizedQuery ++ ":" ++ optionsStr)
  "search:" ++ hashStr

example : normalizeQueryChars "  Foo  BAR ".data = "foo bar".data := by decide

example : simpleHash "a" = "2p" := by decide

set_option maxRecDepth 4000 in
example : generateSearchKey "q" (some [("a", .s "1"), ("b", .s "2")]) ≠
    generateSearchKey "q" (some [("b", .s "2"), ("a", .s "1")]) := by decide

set_option maxRecDepth 4000 in
/-- Counterexample to C6 as stated: the two options lists hold the same
key-value pairs (they are permutations of each other, with distinct keys),
but `JSON.stringify` serializes fields in the order they were supplied, so
the derived keys differ. -/
theorem generateSearchKey_field_order_sensitive :
    List.Perm [("a", JVal.s "1"), ("b", JVal.s "2")] [("b", JVal.s "2"), ("a", JVal.s "1")] ∧
    generateSearchKey "q" (some [("a", JVal.s "1"), ("b", JVal.s "2")]) ≠
      generateSearchKey "q" (some [("b", JVal.s "2"), ("a", JVal.s "1")]) :=
  ⟨List.Perm.swap _ _ _, by decide⟩

/-- C6 (amended).  `generateSearchKey` is a deterministic function of the
normalized query together with the serialized options string; the
serialization follows the order in which the option fields were supplied, so
identical field sequences always give identical keys (but two mappings that
are equal only up to field order need not). -/
theorem generateSearchKey_deterministic (q1 q2 : String)
    (o1 o2 : Option (List (String × JVal)))
    (hq : normalizeQueryChars q1.data = normalizeQueryChars q2.data)
    (ho : serializeOpts o1 = serializeOpts o2) :
    generateSearchKey q1 o1 = generateSearchKey q2 o2 := by
  simp only [generateSearchKey, hq, ho]

set_option maxRecDepth 4000 in
/-- Witness for `generateSearchKey_deterministic` at concrete inputs. -/
theorem generateSearchKey_deterministic_witness :
    normalizeQueryChars "SAME".data = normalizeQueryChars "same".data ∧
    generateSearchKey "SAME" (some [("limit", JVal.n 10)]) =
      generateSearchKey "same" (some [("limit", JVal.n 10)]) :=
  ⟨by decide, generateSearchKey_deterministic "SAME" "same" _ _ (by decide) rfl⟩

/-! ### C9: the normalized query is determined by its case-folded word list

`normalizeQueryChars` (lower-case, trim, collapse whitespace runs) is shown
to equal the space-join of the whitespace-separated words of the
lower-cased query.  Hence two queries that differ only in letter case or in
whitespace runs derive the same search key. -/

/-- Whitespace-separated words of a character list; `cur` is the current
word accumulated in reverse. -/
def wordsAux : List Char → List Char → List (List Char)
  | cur, [] => if cur.isEmpty then [] else [cur.reverse]
  | cur, c :: rest =>
    if isWs c then
      if cur.isEmpty then wordsAux [] rest else cur.reverse :: wordsAux [] rest
    else
      wordsAux (c :: cur) rest

/-- The whitespace-separated words of a query. -/
def queryWords (q : List Char) : List (List Char) :=
  wordsAux [] q

/-- Join words with single spaces. -/
def joinWords : List (List Char) → List Char
  | [] => []
  | w :: ws =>
    w ++ (match ws with
      | [] => []
      | _ :: _ => ' ' :: joinWords ws)

theorem joinWords_cons_ne (w : List Char) (ws : List (List Char)) (h : ws ≠ []) :
    joinWords (w :: ws) = w ++ ' ' :: joinWords ws := by
  cases ws with
  | nil => exact absurd rfl h
  | cons a tl => rfl

theorem ltrim_cons_ws (c : Char) (r : List Char) (h : isWs c = true) :
    ltrim (c :: r) = ltrim r := by
  simp [ltrim, List.dropWhile_cons, h]

theorem ltrim_cons_nonws (c : Char) (r : List Char) (h : isWs c = false) :
    ltrim (c :: r) = c :: r := by
  simp [ltrim, List.dropWhile_cons, h]

theorem ltrim_allws (l : List Char) (h : l.all isWs = true) : ltrim l = [] := by
  induction l with
  | nil => rfl
  | cons c r ih =>
    simp only [List.all_cons, Bool.and_eq_true] at h
    rw [ltrim_cons_ws c r h.1]
    exact ih h.2

theorem rtrim_allws (l : List Char) (h : l.all isWs = true) : rtrim l = [] := by
  have hrev : l.reverse.all isWs = true := by rwa [List.all_reverse]
  show (l.reverse.dropWhile isWs).reverse = []
  rw [show l.reverse.dropWhile isWs = ltrim l.reverse from rfl, ltrim_allws _ hrev]
  rfl

theorem dropWhile_nil_all (p : Char → Bool) (l : List Char) (h : l.dropWhile p = []) :
    l.all p = true := by
  induction l with
  | nil => rfl
  | cons c r ih =>
    rw [List.dropWhile_cons] at h
    by_cases hp : p c
    · rw [if_pos hp] at h
      simp [List.all_cons, hp, ih h]
    · rw [if_neg hp] at h
      exact absurd h (List.cons_ne_nil c r)

theorem rtrim_cons_of_not_allws (d : Char) (r : List Char) (h : r.all isWs = false) :
    rtrim (d :: r) = d :: rtrim r := by
  show ((d :: r).reverse.dropWhile isWs).reverse = d :: (r.reverse.dropWhile isWs).reverse
  rw [List.reverse_cons, List.dropWhile_append]
  have hne : (r.reverse.dropWhile isWs).isEmpty = false := by
    cases hemp : (r.reverse.dropWhile isWs).isEmpty
    · rfl
    · exfalso
      have hnil := List.isEmpty_iff.mp hemp
      have := dropWhile_nil_all isWs r.reverse hnil
      rw [List.all_reverse] at this
      rw [this] at h
      exact absurd h (by simp)
  rw [hne]
  simp

theorem rtrim_cons_nonws (c : Char) (r : List Char) (h : isWs c = false) :
    rtrim (c :: r) = c :: rtrim r := by
  cases hall : r.all isWs
  · exact rtrim_cons_of_not_allws c r hall
  · rw [rtrim_allws r hall]
    show ((c :: r).reverse.dropWhile isWs).reverse = [c]
    rw [List.reverse_cons, List.dropWhile_append]
    have hemp : (r.reverse.dropWhile isWs).isEmpty = true := by
      have hrev : r.reverse.all isWs = true := by rwa [List.all_reverse]
      rw [show r.reverse.dropWhile isWs = ltrim r.reverse from rfl, ltrim_allws _ hrev]
      rfl
    rw [hemp]
    simp [List.dropWhile_cons, h]

theorem wordsAux_ne_nil (s : List Char) : ∀ cur : List Char, cur ≠ [] → wordsAux cur s ≠ [] := by
  induction s with
  | nil =>
    intro cur hcur
    have : cur.isEmpty = false := by
      cases cur
      · exact absurd rfl hcur
      · rfl
    simp [wordsAux, this]
  | cons c rest ih =>
    intro cur hcur
    have hcurE : cur.isEmpty = false := by
      cases cur
      · exact absurd rfl hcur
      · rfl
    cases hw : isWs c
    · simpa [wordsAux, hw] using ih (c :: cur) (List.cons_ne_nil c cur)
    · simp [wordsAux, hw, hcurE]

theorem wordsAux_nil_eq_nil_iff (s : List Char) :
    wordsAux [] s = [] ↔ s.all isWs = true := by
  induction s with
  | nil => simp [wordsAux]
  | cons c rest ih =>
    cases hw : isWs c
    · simp only [wordsAux, hw]
      constructor
      · intro h
        exact absurd h (wordsAux_ne_nil rest [c] (List.cons_ne_nil c []))
      · intro h
        simp only [List.all_cons, Bool.and_eq_true] at h
        rw [hw] at h
        exact absurd h.1 Bool.false_ne_true
    · simp only [wordsAux, hw, List.all_cons]
      simpa [hw] using ih

theorem collapseWs_true_ltrim (u : List Char) :
    collapseWs true u = collapseWs false (ltrim u) := by
  induction u with
  | nil => rfl
  | cons c v ih =>
    cases hw : isWs c
    · rw [ltrim_cons_nonws c v hw]
      simp [collapseWs, hw]
    · rw [ltrim_cons_ws c v hw]
      simpa [collapseWs, hw] using ih

theorem ltrim_rtrim_comm (r : List Char) : ltrim (rtrim r) = rtrim (ltrim r) := by
  induction r with
  | nil => rfl
  | cons c r' ih =>
    cases hw : isWs c
    · rw [rtrim_cons_nonws c r' hw, ltrim_cons_nonws c r' hw,
        ltrim_cons_nonws c (rtrim r') hw, rtrim_cons_nonws c r' hw]
    · cases hall : r'.all isWs
      · rw [rtrim_cons_of_not_allws c r' hall, ltrim_cons_ws c (rtrim r') hw,
          ltrim_cons_ws c r' hw]
        exact ih
      · have hallc : (c :: r').all isWs = true := by simp [List.all_cons, hw, hall]
        rw [rtrim_allws _ hallc, ltrim_cons_ws c r' hw, ltrim_allws r' hall]
        rfl

theorem collapse_join_words : ∀ (n : Nat) (s : List Char), s.length ≤ n →
    (collapseWs false (rtrim (ltrim s)) = joinWords (wordsAux [] s) ∧
     ∀ cur : List Char, cur ≠ [] →
       joinWords (wordsAux cur s) = cur.reverse ++ collapseWs false (rtrim s)) := by
  intro n
  induction n with
  | zero =>
    intro s hs
    have hsnil : s = [] := List.eq_nil_of_length_eq_zero (Nat.le_zero.mp hs)
    subst hsnil
    refine ⟨rfl, ?_⟩
    intro cur hcur
    have hcurE : cur.isEmpty = false := by
      cases cur
      · exact absurd rfl hcur
      · rfl
    simp [wordsAux, hcurE, joinWords, rtrim, collapseWs, ltrim]
  | succ n ih =>
    intro s hs
    match s with
    | [] =>
      refine ⟨rfl, ?_⟩
      intro cur hcur
      have hcurE : cur.isEmpty = false := by
        cases cur
        · exact absurd rfl hcur
        · rfl
      simp [wordsAux, hcurE, joinWords, rtrim, collapseWs, ltrim]
    | c :: rest =>
      have hr : rest.length ≤ n := by
        simpa using Nat.le_of_succ_le_succ hs
      obtain ⟨ihL, ihL2⟩ := ih rest hr
      constructor
      · cases hw : isWs c
        · rw [ltrim_cons_nonws c rest hw, rtrim_cons_nonws c rest hw]
          rw [show wordsAux [] (c :: rest) = wordsAux [c] rest from by simp [wordsAux, hw]]
          rw [ihL2 [c] (List.cons_ne_nil c [])]
          simp [collapseWs, hw]
        · rw [ltrim_cons_ws c rest hw]
          rw [show wordsAux [] (c :: rest) = wordsAux [] rest from by simp [wordsAux, hw]]
          exact ihL
      · intro cur hcur
        have hcurE : cur.isEmpty = false := by
          cases cur
          · exact absurd rfl hcur
          · rfl
        cases hw : isWs c
        · rw [show wordsAux cur (c :: rest) = wordsAux (c :: cur) rest from by
            simp [wordsAux, hw]]
          rw [ihL2 (c :: cur) (List.cons_ne_nil c cur)]
          rw [rtrim_cons_nonws c rest hw]
          simp [collapseWs, hw, List.reverse_cons, List.append_assoc]
        · rw [show wordsAux cur (c :: rest) = cur.reverse :: wordsAux [] rest from by
            simp [wordsAux, hw, hcurE]]
          cases hall : rest.all isWs
          · have hne : wordsAux [] rest ≠ [] := by
              intro hnil
              rw [(wordsAux_nil_eq_nil_iff rest).mp hnil] at hall
              exact absurd hall (by simp)
            rw [joinWords_cons_ne _ _ hne]
            rw [rtrim_cons_of_not_allws c rest hall]
            rw [show collapseWs false (c :: rtrim rest) = ' ' :: collapseWs true (rtrim rest)
              from by simp [collapseWs, hw]]
            rw [collapseWs_true_ltrim, ltrim_rtrim_comm]
            rw [← ihL]
          · have hnil : wordsAux [] rest = [] := (wordsAux_nil_eq_nil_iff rest).mpr hall
            have hallc : (c :: rest).all isWs = true := by
              simp [List.all_cons, hw, hall]
            rw [rtrim_allws _ hallc, hnil]
            simp [joinWords, collapseWs]

theorem normalize_eq_joinWords (s : List Char) :
    collapseWs false (rtrim (ltrim s)) = joinWords (wordsAux [] s) :=
  (collapse_join_words s.length s (Nat.le_refl _)).1

/-- C9.  `generateSearchKey` is invariant under differences of letter case
and whitespace runs in the query: whenever two queries have the same
whitespace-separated word list after case folding (which is exactly "differ
only by letter case or by runs of whitespace"), the derived keys are
identical, for any options. -/
theorem generateSearchKey_case_ws_collision (q1 q2 : String)
    (o : Option (List (String × JVal)))
    (h : queryWords (q1.data.map Char.toLower) = queryWords (q2.data.map Char.toLower)) :
    generateSearchKey q1 o = generateSearchKey q2 o := by
  have h1 : normalizeQueryChars q1.data = normalizeQueryChars q2.data := by
    simp only [normalizeQueryChars]
    rw [normalize_eq_joinWords, normalize_eq_joinWords]
    exact congrArg joinWords h
  simp only [generateSearchKey, h1]

set_option maxRecDepth 4000 in
/-- Witness for `generateSearchKey_case_ws_collision`: the spec's example,
`"Foo  Bar"` and `"foo bar"` collide. -/
theorem generateSearchKey_case_ws_collision_witness :
    queryWords ("Foo  Bar".data.map Char.toLower) =
      queryWords ("foo bar".data.map Char.toLower) ∧
    generateSearchKey "Foo  Bar" none = generateSearchKey "foo bar" none :=
  ⟨by decide, generateSearchKey_case_ws_collision "Foo  Bar" "foo bar" none (by decide)⟩

/-! ## Persistent vote/bookmark ledger (`apps/api/src/services/storage.ts`)

`userVotes : Map<string, Map<number, 'up' | 'down'>>` and
`userBookmarks : Map<string, Map<number, SavedPost>>` are modelled as
association lists with JS `Map` semantics, generically in the value type.
`saveVotes`/`saveBookmarks` serialize a ledger into nested JS objects
(`data[userId][postId] = value`); a JS object with integer-like keys
enumerates them in ascending numeric order, which the dump model reproduces
with sorted insertion.  `loadVotes`/`loadBookmarks` rebuild the maps from
the parsed object by insertion (`JSON.stringify`/`JSON.parse` round the
object structure itself exactly, and decimal rendering/parsing of the
numeric post ids is exact, so the file step is the identity on the modelled
object). -/

/-- One user's per-post map (`Map<number, V>`). -/
abbrev UserRec (V : Type) := List (Nat × V)

/-- The two-level ledger (`Map<string, Map<number, V>>`). -/
abbrev Ledger (V : Type) := List (String × UserRec V)

/-- JS `Map.get` on a per-post map. -/
def recLookup {V : Type} (l : UserRec V) (p : Nat) : Option V :=
  match l.find? (fun kv => kv.1 = p) with
  | none => none
  | some kv => some kv.2

/-- JS `Map.set` on a per-post map. -/
def recSet {V : Type} : UserRec V → Nat → V → UserRec V
  | [], p, v => [(p, v)]
  | (q, w) :: rest, p, v =>
    if q = p then (p, v) :: rest else (q, w) :: recSet rest p v

/-- JS `Map.delete` on a per-post map. -/
def recDelete {V : Type} (l : UserRec V) (p : Nat) : UserRec V :=
  l.filter (fun kv => decide (kv.1 ≠ p))

/-- JS `Map.get` on the outer user map. -/
def ledgerLookupUser {V : Type} (L : Ledger V) (u : String) : Option (UserRec V) :=
  match L.find? (fun uv => uv.1 = u) with
  | none => none
  | some uv => some uv.2

/-- JS `Map.set` on the outer user map. -/
def ledgerSetUser {V : Type} : Ledger V → String → UserRec V → Ledger V
  | [], u, m => [(u, m)]
  | (u', m') :: rest, u, m =>
    if u' = u then (u, m) :: rest else (u', m') :: ledgerSetUser rest u m

/-- `getUserVotes(userId)`: create the user's map if missing and return it
(together with the possibly-extended ledger, since the source mutates the
outer map). -/
def getUserVotesL {V : Type} (L : Ledger V) (u : String) : UserRec V × Ledger V :=
  match ledgerLookupUser L u with
  | some m => (m, L)
  | none => ([], ledgerSetUser L u [])

/-- `setUserVote(userId, postId, vote)`: delete the entry on `null`,
otherwise store the vote; the user's map is updated in the ledger. -/
def setUserVote (L : Ledger Dir) (u : String) (p : Nat) (v : Option Dir) : Ledger Dir :=
  let vl := getUserVotesL L u
  let votes' :=
    match v with
    | none => recDelete vl.1 p
    | some d => recSet vl.1 p d
  ledgerSetUser vl.2 u votes'

/-- `getUserVote(userId, postId)`: `votes.get(postId) || null`. -/
def getUserVote (L : Ledger Dir) (u : String) (p : Nat) : Option Dir :=
  recLookup (getUserVotesL L u).1 p

/-- Assignment `data[postId] = v` into a JS object whose keys are
integer-like: the object enumerates such keys in ascending numeric order,
modelled as sorted insertion (replacing on an equal key). -/
def recInsertSorted {V : Type} (p : Nat) (v : V) : UserRec V → UserRec V
  | [] => [(p, v)]
  | (q, w) :: rest =>
    if p < q then (p, v) :: (q, w) :: rest
    else if p = q then (p, v) :: rest
    else (q, w) :: recInsertSorted p v rest

/-- The inner loop of `saveVotes`/`saveBookmarks`:
`votes.forEach((vote, postId) => { data[userId][postId] = vote })`. -/
def jsRecordOf {V : Type} (l : UserRec V) : UserRec V :=
  l.foldl (fun acc kv => recInsertSorted kv.1 kv.2 acc) []

/-- The serialized dump written by `saveVotes`/`saveBookmarks`: one record
per user, in user-map order, each with its per-post entries in ascending
post-id order. -/
def dumpLedger {V : Type} (L : Ledger V) : Ledger V :=
  L.map (fun uv => (uv.1, jsRecordOf uv.2))

/-- The inner loop of `loadVotes`/`loadBookmarks`: rebuild one user's map
from the parsed record by `Map.set` insertions. -/
def loadRec {V : Type} (d : UserRec V) : UserRec V :=
  d.foldl (fun m kv => recSet m kv.1 kv.2) []

/-- `loadVotes`/`loadBookmarks`: rebuild the ledger from a parsed dump. -/
def loadLedger {V : Type} (d : Ledger V) : Ledger V :=
  d.foldl (fun L uv => ledgerSetUser L uv.1 (loadRec uv.2)) []

/-- Whether the `(userId, postId)` entry appears in a full serialized dump
of the ledger. -/
def dumpHasEntry {V : Type} (L : Ledger V) (u : String) (p : Nat) : Bool :=
  match ledgerLookupUser (dumpLedger L) u with
  | none => false
  | some r => (recLookup r p).isSome

/-- `calls.foldl`: a sequence of `setUserVote` calls on one `(userId, postId)`. -/
def applySetVotes (L : Ledger Dir) (u : String) (p : Nat) (calls : List (Option Dir)) :
    Ledger Dir :=
  calls.foldl (fun acc v => setUserVote acc u p v) L

example : getUserVote (applySetVotes [] "u" 1 [some .up, some .down]) "u" 1 = some .down := by
  decide

example : dumpHasEntry (applySetVotes [] "u" 1 [some .up, none]) "u" 1 = false := by decide

example : loadLedger (dumpLedger [("u", [(5, Dir.up), (3, Dir.down)])]) =
    [("u", [(3, Dir.down), (5, Dir.up)])] := by decide

/-! ### C7: last `setUserVote` call wins; `null` removes the entry -/

theorem ledgerLookupUser_setUser_self {V : Type} (L : Ledger V) (u : String) (m : UserRec V) :
    ledgerLookupUser (ledgerSetUser L u m) u = some m := by
  induction L with
  | nil => simp [ledgerSetUser, ledgerLookupUser, List.find?]
  | cons uv rest ih =>
    cases uv with
    | mk u' m' =>
      by_cases h : u' = u
      · simp [ledgerSetUser, h, ledgerLookupUser, List.find?]
      · simp only [ledgerSetUser, if_neg h]
        simpa [ledgerLookupUser, List.find?, h] using ih

theorem recLookup_recSet_self {V : Type} (l : UserRec V) (p : Nat) (v : V) :
    recLookup (recSet l p v) p = some v := by
  induction l with
  | nil => simp [recSet, recLookup, List.find?]
  | cons kv rest ih =>
    cases kv with
    | mk q w =>
      by_cases h : q = p
      · simp [recSet, h, recLookup, List.find?]
      · simp only [recSet, if_neg h]
        simpa [recLookup, List.find?, h] using ih

theorem recLookup_recDelete_self {V : Type} (l : UserRec V) (p : Nat) :
    recLookup (recDelete l p) p = none := by
  induction l with
  | nil => rfl
  | cons kv rest ih =>
    by_cases h : kv.1 = p
    · simpa [recDelete, List.filter, h] using ih
    · simp only [recDelete, List.filter] at ih ⊢
      rw [show (decide (kv.1 ≠ p)) = true from by simp [h]]
      simpa [recLookup, List.find?, h] using ih

theorem getUserVote_setUserVote_self (L : Ledger Dir) (u : String) (p : Nat) (v : Option Dir) :
    getUserVote (setUserVote L u p v) u p = v := by
  cases v with
  | none =>
    simp only [setUserVote, getUserVote, getUserVotesL, ledgerLookupUser_setUser_self]
    exact recLookup_recDelete_self _ p
  | some d =>
    simp only [setUserVote, getUserVote, getUserVotesL, ledgerLookupUser_setUser_self]
    exact recLookup_recSet_self _ p d

theorem ledgerLookupUser_dump {V : Type} (L : Ledger V) (u : String) :
    ledgerLookupUser (dumpLedger L) u = (ledgerLookupUser L u).map jsRecordOf := by
  induction L with
  | nil => rfl
  | cons uv rest ih =>
    cases uv with
    | mk u' m' =>
      by_cases h : u' = u
      · simp [dumpLedger, ledgerLookupUser, List.find?, h]
      · simpa [dumpLedger, ledgerLookupUser, List.find?, h] using ih

theorem recLookup_recInsertSorted_ne {V : Type} (acc : UserRec V) (q p : Nat) (v : V)
    (h : q ≠ p) : recLookup (recInsertSorted q v acc) p = recLookup acc p := by
  induction acc with
  | nil => simp [recInsertSorted, recLookup, List.find?, h]
  | cons kv rest ih =>
    cases kv with
    | mk q' w =>
      simp only [recInsertSorted]
      by_cases h1 : q < q'
      · rw [if_pos h1]
        simp [recLookup, List.find?, h]
      · rw [if_neg h1]
        by_cases h2 : q = q'
        · rw [if_pos h2]
          subst h2
          simp [recLookup, List.find?, h]
        · rw [if_neg h2]
          by_cases h3 : q' = p
          · simp [recLookup, List.find?, h3]
          · simp only [recLookup, List.find?] at ih ⊢
            simpa [h3] using ih

theorem recLookup_foldl_insert_none {V : Type} (l : UserRec V) (p : Nat) :
    ∀ acc : UserRec V, (∀ kv ∈ l, kv.1 ≠ p) → recLookup acc p = none →
      recLookup (l.foldl (fun a kv => recInsertSorted kv.1 kv.2 a) acc) p = none := by
  induction l with
  | nil =>
    intro acc _ hacc
    exact hacc
  | cons kv rest ih =>
    intro acc hl hacc
    rw [List.foldl_cons]
    refine ih _ (fun x hx => hl x (List.mem_cons_of_mem kv hx)) ?_
    rw [recLookup_recInsertSorted_ne acc kv.1 p kv.2 (hl kv (List.mem_cons_self kv rest))]
    exact hacc

theorem dumpHasEntry_setUserVote_none (L : Ledger Dir) (u : String) (p : Nat) :
    dumpHasEntry (setUserVote L u p none) u p = false := by
  simp only [dumpHasEntry, setUserVote, ledgerLookupUser_dump, ledgerLookupUser_setUser_self]
  have hmem : ∀ kv ∈ recDelete (getUserVotesL L u).1 p, kv.1 ≠ p := by
    intro kv hkv
    have := List.of_mem_filter hkv
    simpa using this
  have hnone : recLookup (jsRecordOf (recDelete (getUserVotesL L u).1 p)) p = none :=
    recLookup_foldl_insert_none _ p [] hmem rfl
  rw [show Option.map jsRecordOf (some (recDelete (getUserVotesL L u).1 p)) =
      some (jsRecordOf (recDelete (getUserVotesL L u).1 p)) from rfl]
  show (recLookup (jsRecordOf (recDelete (getUserVotesL L u).1 p)) p).isSome = false
  rw [hnone]
  rfl

/-- C7.  For every nonempty sequence of `setUserVote` calls on one
`(userId, postId)`: if the last call carries a vote direction, that
direction is the finally stored vote; if the last call carries `null`
(absent), the entry is removed entirely — `getUserVote` is `null` and the
`(userId, postId)` key does not appear in a full serialized dump of the
ledger. -/
theorem setUserVote_last_call_wins (L : Ledger Dir) (u : String) (p : Nat)
    (calls : List (Option Dir)) (v : Option Dir) (h : calls.getLast? = some v) :
    (∀ d : Dir, v = some d → getUserVote (applySetVotes L u p calls) u p = some d) ∧
    (v = none →
      getUserVote (applySetVotes L u p calls) u p = none ∧
      dumpHasEntry (applySetVotes L u p calls) u p = false) := by
  obtain ⟨init, rfl⟩ := List.getLast?_eq_some_iff.mp h
  have happ : applySetVotes L u p (init ++ [v]) =
      setUserVote (applySetVotes L u p init) u p v := by
    simp [applySetVotes, List.foldl_append]
  constructor
  · intro d hd
    subst hd
    rw [happ]
    exact getUserVote_setUserVote_self _ u p (some d)
  · intro hv
    subst hv
    rw [happ]
    exact ⟨getUserVote_setUserVote_self _ u p none, dumpHasEntry_setUserVote_none _ u p⟩

/-- Witness for `setUserVote_last_call_wins`: the sequence `up, null` on a
fresh ledger removes the entry from the dump. -/
theorem setUserVote_last_call_wins_witness :
    getUserVote (applySetVotes [] "u" 1 [some .up, none]) "u" 1 = none ∧
    dumpHasEntry (applySetVotes [] "u" 1 [some .up, none]) "u" 1 = false :=
  (setUserVote_last_call_wins [] "u" 1 [some .up, none] none (by decide)).2 rfl

/-! ### C8: save/load round-trip reproduces the ledger -/

theorem recSet_append_fresh {V : Type} (l : UserRec V) (p : Nat) (v : V)
    (h : p ∉ l.map Prod.fst) : recSet l p v = l ++ [(p, v)] := by
  induction l with
  | nil => rfl
  | cons kv rest ih =>
    cases kv with
    | mk q w =>
      simp only [List.map_cons, List.mem_cons] at h
      push_neg at h
      simp only [recSet, if_neg (Ne.symm h.1)]
      rw [ih h.2, List.cons_append]

theorem loadRec_foldl_fresh {V : Type} (l : UserRec V) :
    ∀ acc : UserRec V, (l.map Prod.fst).Nodup →
      (∀ q ∈ l.map Prod.fst, q ∉ acc.map Prod.fst) →
      l.foldl (fun m kv => recSet m kv.1 kv.2) acc = acc ++ l := by
  induction l with
  | nil =>
    intro acc _ _
    simp
  | cons kv rest ih =>
    intro acc hnd hdisj
    rw [List.foldl_cons]
    have hfresh : kv.1 ∉ acc.map Prod.fst :=
      hdisj kv.1 (by simp)
    rw [recSet_append_fresh acc kv.1 kv.2 hfresh]
    simp only [List.map_cons, List.nodup_cons] at hnd
    rw [ih (acc ++ [(kv.1, kv.2)]) hnd.2 ?_]
    · simp
    · intro q hq
      simp only [List.map_append, List.mem_append]
      push_neg
      constructor
      · exact hdisj q (by simp [hq])
      · intro hq1
        simp only [List.map_cons, List.map_nil, List.mem_cons, List.not_mem_nil] at hq1
        rcases hq1 with hq1 | hq1
        · rw [hq1] at hq
          exact hnd.1 hq
        · exact hq1

theorem loadRec_eq_self {V : Type} (l : UserRec V) (h : (l.map Prod.fst).Nodup) :
    loadRec l = l := by
  have := loadRec_foldl_fresh l [] h (by simp)
  simpa [loadRec] using this

theorem ledgerSetUser_append_fresh {V : Type} (L : Ledger V) (u : String) (m : UserRec V)
    (h : u ∉ L.map Prod.fst) : ledgerSetUser L u m = L ++ [(u, m)] := by
  induction L with
  | nil => rfl
  | cons uv rest ih =>
    cases uv with
    | mk u' m' =>
      simp only [List.map_cons, List.mem_cons] at h
      push_neg at h
      simp only [ledgerSetUser, if_neg (Ne.symm h.1)]
      rw [ih h.2, List.cons_append]

theorem loadLedger_foldl_fresh {V : Type} (d : Ledger V) :
    ∀ acc : Ledger V, (d.map Prod.fst).Nodup →
      (∀ u ∈ d.map Prod.fst, u ∉ acc.map Prod.fst) →
      d.foldl (fun L uv => ledgerSetUser L uv.1 (loadRec uv.2)) acc =
        acc ++ d.map (fun uv => (uv.1, loadRec uv.2)) := by
  induction d with
  | nil =>
    intro acc _ _
    simp
  | cons uv rest ih =>
    intro acc hnd hdisj
    rw [List.foldl_cons]
    have hfresh : uv.1 ∉ acc.map Prod.fst :=
      hdisj uv.1 (by simp)
    rw [ledgerSetUser_append_fresh acc uv.1 (loadRec uv.2) hfresh]
    simp only [List.map_cons, List.nodup_cons] at hnd
    rw [ih (acc ++ [(uv.1, loadRec uv.2)]) hnd.2 ?_]
    · simp
    · intro q hq
      simp only [List.map_append, List.mem_append]
      push_neg
      constructor
      · exact hdisj q (by simp [hq])
      · intro hq1
        simp only [List.map_cons, List.map_nil, List.mem_cons, List.not_mem_nil] at hq1
        rcases hq1 with hq1 | hq1
        · rw [hq1] at hq
          exact hnd.1 hq
        · exact hq1

theorem loadLedger_eq_map {V : Type} (d : Ledger V) (h : (d.map Prod.fst).Nodup) :
    loadLedger d = d.map (fun uv => (uv.1, loadRec uv.2)) := by
  have := loadLedger_foldl_fresh d [] h (by simp)
  simpa [loadLedger] using this

theorem mem_recInsertSorted {V : Type} (acc : UserRec V) (p : Nat) (v : V)
    (x : Nat × V) (hx : x ∈ recInsertSorted p v acc) : x = (p, v) ∨ x ∈ acc := by
  induction acc with
  | nil =>
    simp only [recInsertSorted, List.mem_singleton] at hx
    exact Or.inl hx
  | cons kv rest ih =>
    cases kv with
    | mk q w =>
      simp only [recInsertSorted] at hx
      by_cases h1 : p < q
      · rw [if_pos h1] at hx
        simp only [List.mem_cons] at hx
        rcases hx with hx | hx | hx
        · exact Or.inl hx
        · exact Or.inr (by simp [hx])
        · exact Or.inr (by simp [hx])
      · rw [if_neg h1] at hx
        by_cases h2 : p = q
        · rw [if_pos h2] at hx
          simp only [List.mem_cons] at hx
          rcases hx with hx | hx
          · exact Or.inl hx
          · exact Or.inr (by simp [hx])
        · rw [if_neg h2] at hx
          simp only [List.mem_cons] at hx
          rcases hx with hx | hx
          · exact Or.inr (by simp [hx])
          · rcases ih hx with hx' | hx'
            · exact Or.inl hx'
            · exact Or.inr (by simp [hx'])

theorem pairwise_recInsertSorted {V : Type} (acc : UserRec V) (p : Nat) (v : V)
    (h : acc.Pairwise (fun a b => a.1 < b.1)) :
    (recInsertSorted p v acc).Pairwise (fun a b => a.1 < b.1) := by
  induction acc with
  | nil => simp [recInsertSorted]
  | cons kv rest ih =>
    cases kv with
    | mk q w =>
      rw [List.pairwise_cons] at h
      simp only [recInsertSorted]
      by_cases h1 : p < q
      · rw [if_pos h1]
        rw [List.pairwise_cons]
        refine ⟨?_, List.pairwise_cons.mpr h⟩
        intro x hx
        simp only [List.mem_cons] at hx
        rcases hx with hx | hx
        · rw [hx]
          exact h1
        · exact Nat.lt_trans h1 (h.1 x hx)
      · rw [if_neg h1]
        by_cases h2 : p = q
        · rw [if_pos h2]
          rw [List.pairwise_cons]
          refine ⟨?_, h.2⟩
          intro x hx
          rw [h2]
          exact h.1 x hx
        · rw [if_neg h2]
          rw [List.pairwise_cons]
          refine ⟨?_, ih h.2⟩
          intro x hx
          rcases mem_recInsertSorted rest p v x hx with hx' | hx'
          · rw [hx']
            omega
          · exact h.1 x hx'

theorem pairwise_jsRecordOf {V : Type} (l : UserRec V) :
    (jsRecordOf l).Pairwise (fun a b => a.1 < b.1) := by
  have haux : ∀ acc : UserRec V, acc.Pairwise (fun a b => a.1 < b.1) →
      (l.foldl (fun a kv => recInsertSorted kv.1 kv.2 a) acc).Pairwise
        (fun a b => a.1 < b.1) := by
    induction l with
    | nil =>
      intro acc hacc
      exact hacc
    | cons kv rest ih =>
      intro acc hacc
      rw [List.foldl_cons]
      exact ih _ (pairwise_recInsertSorted acc kv.1 kv.2 hacc)
  exact haux [] (by simp)

theorem jsRecordOf_keys_nodup {V : Type} (l : UserRec V) :
    ((jsRecordOf l).map Prod.fst).Nodup := by
  have h : (jsRecordOf l).Pairwise (fun a b => a.1 ≠ b.1) :=
    (pairwise_jsRecordOf l).imp (fun hlt => Nat.ne_of_lt hlt)
  simp only [List.Nodup, List.pairwise_map]
  exact h

theorem recLookup_cons_eq {V : Type} (kv : Nat × V) (l : UserRec V) (p : Nat)
    (h : kv.1 = p) : recLookup (kv :: l) p = some kv.2 := by
  simp [recLookup, List.find?, h]

theorem recLookup_cons_ne {V : Type} (kv : Nat × V) (l : UserRec V) (p : Nat)
    (h : kv.1 ≠ p) : recLookup (kv :: l) p = recLookup l p := by
  simp [recLookup, List.find?, h]

theorem recLookup_eq_none_of_not_mem {V : Type} (l : UserRec V) (p : Nat)
    (h : p ∉ l.map Prod.fst) : recLookup l p = none := by
  induction l with
  | nil => rfl
  | cons kv rest ih =>
    simp only [List.map_cons, List.mem_cons] at h
    push_neg at h
    rw [recLookup_cons_ne kv rest p (fun he => h.1 he.symm)]
    exact ih h.2

theorem recLookup_recInsertSorted_self {V : Type} (acc : UserRec V) (p : Nat) (v : V) :
    recLookup (recInsertSorted p v acc) p = some v := by
  induction acc with
  | nil => simp [recInsertSorted, recLookup, List.find?]
  | cons kv rest ih =>
    cases kv with
    | mk q w =>
      simp only [recInsertSorted]
      by_cases h1 : p < q
      · rw [if_pos h1]
        exact recLookup_cons_eq (p, v) _ p rfl
      · rw [if_neg h1]
        by_cases h2 : p = q
        · rw [if_pos h2]
          exact recLookup_cons_eq (p, v) _ p rfl
        · rw [if_neg h2]
          rw [recLookup_cons_ne (q, w) _ p (by omega)]
          exact ih

theorem recLookup_foldl_insert {V : Type} (l : UserRec V) :
    ∀ (acc : UserRec V) (p : Nat), (l.map Prod.fst).Nodup →
      recLookup (l.foldl (fun a kv => recInsertSorted kv.1 kv.2 a) acc) p =
        (match recLookup l p with
         | some v => some v
         | none => recLookup acc p) := by
  induction l with
  | nil =>
    intro acc p _
    rfl
  | cons kv rest ih =>
    intro acc p hnd
    cases kv with
    | mk q w =>
      simp only [List.map_cons, List.nodup_cons] at hnd
      rw [List.foldl_cons]
      rw [ih _ p hnd.2]
      by_cases hpq : q = p
      · subst hpq
        have hrest : recLookup rest q = none :=
          recLookup_eq_none_of_not_mem rest q hnd.1
        rw [hrest, recLookup_cons_eq (q, w) rest q rfl]
        rw [recLookup_recInsertSorted_self acc q w]
      · rw [recLookup_recInsertSorted_ne acc q p w hpq]
        rw [recLookup_cons_ne (q, w) rest p hpq]

theorem recLookup_jsRecordOf {V : Type} (l : UserRec V) (p : Nat)
    (hnd : (l.map Prod.fst).Nodup) :
    recLookup (jsRecordOf l) p = recLookup l p := by
  rw [show jsRecordOf l = l.foldl (fun a kv => recInsertSorted kv.1 kv.2 a) [] from rfl]
  rw [recLookup_foldl_insert l [] p hnd]
  cases h : recLookup l p
  · rfl
  · rfl

theorem ledgerLookupUser_map {V : Type} (L : Ledger V) (f : UserRec V → UserRec V)
    (u : String) :
    ledgerLookupUser (L.map (fun uv => (uv.1, f uv.2))) u =
      (ledgerLookupUser L u).map f := by
  induction L with
  | nil => rfl
  | cons uv rest ih =>
    cases uv with
    | mk u' m' =>
      by_cases h : u' = u
      · simp [ledgerLookupUser, List.find?, h]
      · simpa [ledgerLookupUser, List.find?, h] using ih

/-- Lookup of the `(userId, postId)` ledger entry. -/
def ledgerEntryLookup {V : Type} (L : Ledger V) (u : String) (p : Nat) : Option V :=
  match ledgerLookupUser L u with
  | none => none
  | some m => recLookup m p

/-- C8.  Serializing a vote or bookmark ledger the way `saveVotes` /
`saveBookmarks` do and loading the result on a fresh instance the way
`loadVotes` / `loadBookmarks` do reproduces a ledger identical to the
original as a mapping: the same users in the same order, and the same
`(userId, postId) → value` entries.  (The per-user maps are keyed by JS
`Map`s, so their key lists are duplicate-free, which is the stated
hypothesis.) -/
theorem ledger_save_load_roundtrip {V : Type} (L : Ledger V)
    (husers : (L.map Prod.fst).Nodup)
    (hrecs : ∀ um ∈ L, ((um.2 : UserRec V).map Prod.fst).Nodup) :
    ((loadLedger (dumpLedger L)).map Prod.fst = L.map Prod.fst) ∧
    (∀ u : String, (ledgerLookupUser (loadLedger (dumpLedger L)) u).isSome =
      (ledgerLookupUser L u).isSome) ∧
    (∀ (u : String) (p : Nat),
      ledgerEntryLookup (loadLedger (dumpLedger L)) u p = ledgerEntryLookup L u p) := by
  have hdk : (dumpLedger L).map Prod.fst = L.map Prod.fst := by
    simp [dumpLedger, List.map_map]
  have hdnodup : ((dumpLedger L).map Prod.fst).Nodup := by
    rw [hdk]
    exact husers
  have hload : loadLedger (dumpLedger L) =
      L.map (fun uv => (uv.1, loadRec (jsRecordOf uv.2))) := by
    rw [loadLedger_eq_map _ hdnodup]
    simp [dumpLedger, List.map_map]
  have hLR : ∀ m : UserRec V, loadRec (jsRecordOf m) = jsRecordOf m :=
    fun m => loadRec_eq_self (jsRecordOf m) (jsRecordOf_keys_nodup m)
  refine ⟨?_, ?_, ?_⟩
  · rw [hload]
    simp [List.map_map]
  · intro u
    have hmap := ledgerLookupUser_map L (fun m => loadRec (jsRecordOf m)) u
    rw [hload, show ledgerLookupUser (L.map (fun uv => (uv.1, loadRec (jsRecordOf uv.2)))) u =
      (ledgerLookupUser L u).map (fun m => loadRec (jsRecordOf m)) from hmap]
    cases ledgerLookupUser L u
    · rfl
    · rfl
  · intro u p
    have hmap := ledgerLookupUser_map L (fun m => loadRec (jsRecordOf m)) u
    simp only [ledgerEntryLookup, hload]
    rw [show ledgerLookupUser (L.map (fun uv => (uv.1, loadRec (jsRecordOf uv.2)))) u =
      (ledgerLookupUser L u).map (fun m => loadRec (jsRecordOf m)) from hmap]
    cases hu : ledgerLookupUser L u with
    | none => rfl
    | some m =>
      show recLookup (loadRec (jsRecordOf m)) p = recLookup m p
      rw [hLR m]
      have hfind : ∃ uv ∈ L, uv.2 = m := by
        simp only [ledgerLookupUser] at hu
        cases hfind : L.find? (fun uv => uv.1 = u) with
        | none =>
          rw [hfind] at hu
          exact absurd hu (by simp)
        | some uv =>
          rw [hfind] at hu
          refine ⟨uv, List.mem_of_find?_eq_some hfind, ?_⟩
          simpa using hu
      obtain ⟨uv, huv, hm⟩ := hfind
      have hnd : (m.map Prod.fst).Nodup := by
        rw [← hm]
        exact hrecs uv huv
      exact recLookup_jsRecordOf m p hnd

/-- Witness for `ledger_save_load_roundtrip` on a concrete two-user ledger
(with deliberately unsorted per-post insertion order). -/
theorem ledger_save_load_roundtrip_witness :
    ((loadLedger (dumpLedger [("u", [(5, Dir.up), (3, Dir.down)]), ("w", [(1, Dir.up)])])).map
      Prod.fst = [("u", [(5, Dir.up), (3, Dir.down)]), ("w", [(1, Dir.up)])].map Prod.fst) ∧
    ledgerEntryLookup
      (loadLedger (dumpLedger [("u", [(5, Dir.up), (3, Dir.down)]), ("w", [(1, Dir.up)])]))
      "u" 3 =
    ledgerEntryLookup [("u", [(5, Dir.up), (3, Dir.down)]), ("w", [(1, Dir.up)])] "u" 3 :=
  ⟨(ledger_save_load_roundtrip _ (by decide) (by decide)).1,
   (ledger_save_load_roundtrip _ (by decide) (by decide)).2.2 "u" 3⟩

/-! ## Server vote endpoint (`social.post('/vote')`)

The handler reads the user's current vote, computes `scoreChange`, and
updates the per-user vote map.  Only the per-user map and the response
fields are modelled; authentication and body validation happen before this
logic and cannot reach it on failure. -/

/-- Result of the `/vote` handler: the user's vote map after the call and
the JSON response fields. -/
structure VoteEndpointResult where
  votes : UserRec Dir
  success : Bool
  postId : Nat
  vote : Option Dir
  previousVote : Option Dir
  scoreChange : Int
deriving Repr

/-- The `/vote` handler body (after validation): `previousVote` is the
stored vote; `'none'` deletes, `'up'`/`'down'` store; `scoreChange` follows
the source's branch structure, starting from 0. -/
def serverVote (votes : UserRec Dir) (postId : Nat) (vote : Option Dir) :
    VoteEndpointResult :=
  let previousVote := recLookup votes postId
  match vote with
  | none =>
    let scoreChange : Int :=
      if previousVote = some .up then -1
      else if previousVote = some .down then 1
      else 0
    ⟨recDelete votes postId, true, postId, none, previousVote, scoreChange⟩
  | some .up =>
    let scoreChange : Int :=
      if previousVote = some .down then 2
      else if previousVote = none then 1
      else 0
    ⟨recSet votes postId .up, true, postId, some .up, previousVote, scoreChange⟩
  | some .down =>
    let scoreChange : Int :=
      if previousVote = some .up then -2
      else if previousVote = none then -1
      else 0
    ⟨recSet votes postId .down, true, postId, some .down, previousVote, scoreChange⟩

theorem recLookup_recSet {V : Type} (l : UserRec V) (p : Nat) (v : V) (q : Nat) :
    recLookup (recSet l p v) q = if q = p then some v else recLookup l q := by
  induction l with
  | nil =>
    by_cases h : q = p
    · simp [recSet, recLookup, List.find?, h]
    · have hpq : p ≠ q := fun hpq => h hpq.symm
      simp [recSet, recLookup, List.find?, h, hpq]
  | cons kv rest ih =>
    cases kv with
    | mk r w =>
      simp only [recSet]
      by_cases h1 : r = p
      · rw [if_pos h1]
        by_cases h2 : q = p
        · rw [if_pos h2]
          exact recLookup_cons_eq (p, v) rest q h2.symm
        · rw [if_neg h2, recLookup_cons_ne (p, v) rest q (fun hpq => h2 hpq.symm)]
          rw [← h1] at h2
          exact (recLookup_cons_ne (r, w) rest q (fun hrq => h2 hrq.symm)).symm
      · rw [if_neg h1]
        by_cases h3 : r = q
        · rw [recLookup_cons_eq (r, w) _ q h3, recLookup_cons_eq (r, w) rest q h3]
          rw [if_neg (fun hqp : q = p => h1 (h3.trans hqp))]
        · rw [recLookup_cons_ne (r, w) _ q h3, recLookup_cons_ne (r, w) rest q h3]
          exact ih

/-- C10.  The `/vote` endpoint is idempotent for a repeated same-direction
vote: when the stored vote for `(user, post)` already equals the submitted
direction, the handler succeeds with `scoreChange = 0`, reports the stored
vote as `previousVote`, and leaves the stored vote map unchanged (no
toggle-off; removing a vote requires an explicit `'none'`). -/
theorem serverVote_same_direction_idempotent (votes : UserRec Dir) (postId : Nat) (d : Dir)
    (h : recLookup votes postId = some d) :
    (serverVote votes postId (some d)).scoreChange = 0 ∧
    (serverVote votes postId (some d)).success = true ∧
    (serverVote votes postId (some d)).previousVote = some d ∧
    (∀ q : Nat, recLookup (serverVote votes postId (some d)).votes q = recLookup votes q) := by
  cases d with
  | up =>
    refine ⟨?_, rfl, ?_, ?_⟩
    · simp [serverVote, h]
    · simp [serverVote, h]
    · intro q
      show recLookup (recSet votes postId .up) q = recLookup votes q
      rw [recLookup_recSet]
      by_cases hq : q = postId
      · rw [if_pos hq, hq, h]
      · rw [if_neg hq]
  | down =>
    refine ⟨?_, rfl, ?_, ?_⟩
    · simp [serverVote, h]
    · simp [serverVote, h]
    · intro q
      show recLookup (recSet votes postId .down) q = recLookup votes q
      rw [recLookup_recSet]
      by_cases hq : q = postId
      · rw [if_pos hq, hq, h]
      · rw [if_neg hq]

/-- Witness for `serverVote_same_direction_idempotent`: voting `'up'` on a
post already voted `'up'`. -/
theorem serverVote_same_direction_idempotent_witness :
    (serverVote [(1, Dir.up)] 1 (some Dir.up)).scoreChange = 0 ∧
    recLookup (serverVote [(1, Dir.up)] 1 (some Dir.up)).votes 1 =
      recLookup [(1, Dir.up)] 1 :=
  ⟨(serverVote_same_direction_idempotent [(1, Dir.up)] 1 Dir.up (by decide)).1,
   (serverVote_same_direction_idempotent [(1, Dir.up)] 1 Dir.up (by decide)).2.2.2 1⟩

/-! ## Client-side optimistic reconcilers (`VoteContext`, `BookmarkContext`)

`votes`/`scoreAdjustments` (and `bookmarks`) are small JS objects keyed by
post id; they are modelled as total functions with the object's default
(`undefined` → `none`, `|| 0` → `0`, falsy → `false`).  The `fetch`
confirmation is modelled by an explicit outcome parameter: `ok`, a non-ok
HTTP response carrying the server's error message, or a network error
(thrown and caught by the source's `catch`). -/

/-- Client vote state: `votes[postId]` and `scoreAdjustments[postId]`. -/
structure VoteState where
  votes : Nat → Option Dir
  scoreAdjustments : Nat → Int

/-- `const newVote = currentVote === voteType ? 'none' : voteType`. -/
def clickNext (currentVote : Option Dir) (voteType : Dir) : Option Dir :=
  if currentVote = some voteType then none else some voteType

/-- The adjustment computation of `vote` (lines computing `adjustment`),
from the previous vote and the new vote; the accumulator starts at 0. -/
def voteAdjustment (currentVote newVote : Option Dir) : Int :=
  match newVote with
  | none =>
    if currentVote = some .up then -1
    else if currentVote = some .down then 1
    else 0
  | some .up =>
    if currentVote = some .down then 2
    else if currentVote = none then 1
    else 0
  | some .down =>
    if currentVote = some .up then -2
    else if currentVote = none then -1
    else 0

/-- The optimistic state update of `vote`: store the new vote (deleting the
key on `'none'`) and accumulate the adjustment. -/
def applyVoteClick (s : VoteState) (postId : Nat) (voteType : Dir) : VoteState :=
  let currentVote := s.votes postId
  let newVote := clickNext currentVote voteType
  { votes := fun p => if p = postId then newVote else s.votes p,
    scoreAdjustments := fun p =>
      if p = postId then s.scoreAdjustments postId + voteAdjustment currentVote newVote
      else s.scoreAdjustments p }

/-- `getAdjustedScore(postId, originalScore)`:
`originalScore + (scoreAdjustments[postId] || 0)`. -/
def getAdjustedScore (s : VoteState) (postId : Nat) (originalScore : Int) : Int :=
  originalScore + s.scoreAdjustments postId

/-- Outcome of the confirmation `fetch`. -/
inductive FetchOutcome where
  | ok : FetchOutcome
  | httpError (msg : String) : FetchOutcome
  | networkError : FetchOutcome
deriving DecidableEq, Repr

/-- What `vote` returns to its caller. -/
structure OpResult where
  success : Bool
  error : Option String
deriving DecidableEq, Repr

/-- The full `vote` operation: guards, optimistic update, confirmation, and
rollback to the pre-transition snapshot on failure.  Returns the result
object and the final client state. -/
def voteOp (isAuthenticated hasToken : Bool) (s : VoteState) (postId : Nat)
    (voteType : Dir) (outcome : FetchOutcome) : OpResult × VoteState :=
  if !isAuthenticated then
    ({ success := false, error := some "Please sign in to vote" }, s)
  else if !hasToken then
    ({ success := false, error := some "Authentication required" }, s)
  else
    let s' := applyVoteClick s postId voteType
    match outcome with
    | .ok => ({ success := true, error := none }, s')
    | .httpError msg => ({ success := false, error := some msg }, s)
    | .networkError => ({ success := false, error := some "Network error" }, s)

/-- The empty client vote state (fresh session). -/
def initialVoteState : VoteState :=
  { votes := fun _ => none, scoreAdjustments := fun _ => 0 }

/-- Modelled from the spec: the transition table
`none→up:+1, none→down:-1, up→down:-2, down→up:+2, up→none:-1, down→none:+1`
(pairs outside the table do not arise from clicks and are given 0). -/
def specScoreDelta : Option Dir → Option Dir → Int
  | none, some .up => 1
  | none, some .down => -1
  | some .up, some .down => -2
  | some .down, some .up => 2
  | some .up, none => -1
  | some .down, none => 1
  | _, _ => 0

/-- A session's clicks on one post, applied in order. -/
def applyClicks (s : VoteState) (postId : Nat) (clicks : List Dir) : VoteState :=
  clicks.foldl (fun st c => applyVoteClick st postId c) s

/-- Sum of the spec-table deltas along a click trace. -/
def deltaSum : Option Dir → List Dir → Int
  | _, [] => 0
  | cur, c :: cs => specScoreDelta cur (clickNext cur c) + deltaSum (clickNext cur c) cs

theorem applyVoteClick_votes_self (s : VoteState) (postId : Nat) (c : Dir) :
    (applyVoteClick s postId c).votes postId = clickNext (s.votes postId) c := by
  simp [applyVoteClick]

theorem applyVoteClick_adj_self (s : VoteState) (postId : Nat) (c : Dir) :
    (applyVoteClick s postId c).scoreAdjustments postId =
      s.scoreAdjustments postId +
        voteAdjustment (s.votes postId) (clickNext (s.votes postId) c) := by
  simp [applyVoteClick]

theorem voteAdjustment_eq_specScoreDelta (cur : Option Dir) (click : Dir) :
    voteAdjustment cur (clickNext cur click) = specScoreDelta cur (clickNext cur click) := by
  cases cur with
  | none => cases click <;> rfl
  | some d => cases d <;> cases click <;> rfl

/-- C1.  The client vote reconciler: (a) every click-induced transition's
signed delta follows the spec table (`none→up:+1, none→down:-1, up→down:-2,
down→up:+2, up→none:-1, down→none:+1`); (b) the deltas accumulate — after
any click sequence the displayed score equals
`serverScore + initialAdjustment + sum of the per-transition deltas`; and
(c) on a fresh session, clicks producing `none→up`, `up→down`, `down→none`
on a post with server score 10 display 11, 9, 10 in sequence. -/
theorem vote_reconciler_delta_accumulation :
    (∀ (cur : Option Dir) (click : Dir),
      voteAdjustment cur (clickNext cur click) = specScoreDelta cur (clickNext cur click)) ∧
    (∀ (s : VoteState) (postId : Nat) (clicks : List Dir) (serverScore : Int),
      getAdjustedScore (applyClicks s postId clicks) postId serverScore =
        serverScore + s.scoreAdjustments postId + deltaSum (s.votes postId) clicks) ∧
    ((applyVoteClick initialVoteState 7 .up).votes 7 = some .up ∧
      getAdjustedScore (applyVoteClick initialVoteState 7 .up) 7 10 = 11) ∧
    ((applyVoteClick (applyVoteClick initialVoteState 7 .up) 7 .down).votes 7 = some .down ∧
      getAdjustedScore (applyVoteClick (applyVoteClick initialVoteState 7 .up) 7 .down) 7 10 =
        9) ∧
    ((applyVoteClick (applyVoteClick (applyVoteClick initialVoteState 7 .up) 7 .down) 7
        .down).votes 7 = none ∧
      getAdjustedScore
        (applyVoteClick (applyVoteClick (applyVoteClick initialVoteState 7 .up) 7 .down) 7
          .down) 7 10 = 10) := by
  refine ⟨voteAdjustment_eq_specScoreDelta, ?_, ?_, ?_, ?_⟩
  · intro s postId clicks serverScore
    induction clicks generalizing s with
    | nil =>
      simp [applyClicks, deltaSum, getAdjustedScore]
    | cons c cs ih =>
      rw [show applyClicks s postId (c :: cs) =
          applyClicks (applyVoteClick s postId c) postId cs from rfl]
      rw [ih (applyVoteClick s postId c)]
      rw [applyVoteClick_adj_self, applyVoteClick_votes_self,
        voteAdjustment_eq_specScoreDelta]
      rw [show deltaSum (s.votes postId) (c :: cs) =
          specScoreDelta (s.votes postId) (clickNext (s.votes postId) c) +
            deltaSum (clickNext (s.votes postId) c) cs from rfl]
      omega
  · exact ⟨by decide, by decide⟩
  · exact ⟨by decide, by decide⟩
  · exact ⟨by decide, by decide⟩

/-- The post object passed to `toggleBookmark` (the fields the handler
snapshots). -/
structure Post where
  id : Nat
  title : String
  url : String
  score : Int
  commentCount : Nat
  community : String
  author : String
  timestamp : String
  thumbnail : Option String
  excerpt : Option String
deriving DecidableEq, Repr

/-- The denormalized saved-post snapshot: `{ ...post, savedAt }`. -/
structure SavedPost extends Post where
  savedAt : String
deriving DecidableEq, Repr

/-- `{ ...post, savedAt: new Date().toISOString() }`. -/
def savedPostOf (p : Post) (now : String) : SavedPost :=
  { toPost := p, savedAt := now }

/-- Client bookmark state: the per-post flag map and the saved-posts list
(newest first). -/
structure BookmarkState where
  bookmarks : Nat → Bool
  savedPosts : List SavedPost

/-- The optimistic update of `toggleBookmark`: when saved, delete the flag
and filter the snapshot out of the list; when unsaved, set the flag and
prepend a fresh snapshot. -/
def applyToggleBookmark (s : BookmarkState) (post : Post) (now : String) : BookmarkState :=
  if s.bookmarks post.id then
    { bookmarks := fun p => if p = post.id then false else s.bookmarks p,
      savedPosts := s.savedPosts.filter (fun sp => decide (sp.toPost.id ≠ post.id)) }
  else
    { bookmarks := fun p => if p = post.id then true else s.bookmarks p,
      savedPosts := savedPostOf post now :: s.savedPosts }

/-- What `toggleBookmark` returns to its caller. -/
structure ToggleResult where
  success : Bool
  saved : Option Bool
  error : Option String
deriving DecidableEq, Repr

/-- The full `toggleBookmark` operation: guards, optimistic update,
confirmation, rollback to the pre-transition snapshot on failure. -/
def toggleBookmarkOp (isAuthenticated hasToken : Bool) (s : BookmarkState) (post : Post)
    (now : String) (outcome : FetchOutcome) : ToggleResult × BookmarkState :=
  if !isAuthenticated then
    ({ success := false, saved := none, error := some "Please sign in to save posts" }, s)
  else if !hasToken then
    ({ success := false, saved := none, error := some "Authentication required" }, s)
  else
    let isCurrentlySaved := s.bookmarks post.id
    let s' := applyToggleBookmark s post now
    match outcome with
    | .ok => ({ success := true, saved := some (!isCurrentlySaved), error := none }, s')
    | .httpError msg => ({ success := false, saved := none, error := some msg }, s)
    | .networkError => ({ success := false, saved := none, error := some "Network error" }, s)

/-- The empty client bookmark state (fresh session). -/
def initialBookmarkState : BookmarkState :=
  { bookmarks := fun _ => false, savedPosts := [] }

/-- C2.  For every vote toggle and every bookmark toggle whose confirmation
request fails (non-ok HTTP response or network error), the client state —
the per-post vote and accumulated score adjustment, respectively the
bookmark flag map and saved-posts list — is exactly the pre-transition
snapshot, and the operation returns `success = false` with an error message
instead of throwing. -/
theorem optimistic_rollback_on_failure :
    (∀ (s : VoteState) (postId : Nat) (voteType : Dir) (outcome : FetchOutcome),
      outcome ≠ .ok →
        (voteOp true true s postId voteType outcome).2 = s ∧
        (voteOp true true s postId voteType outcome).1.success = false ∧
        (voteOp true true s postId voteType outcome).1.error.isSome = true) ∧
    (∀ (s : BookmarkState) (post : Post) (now : String) (outcome : FetchOutcome),
      outcome ≠ .ok →
        (toggleBookmarkOp true true s post now outcome).2 = s ∧
        (toggleBookmarkOp true true s post now outcome).1.success = false ∧
        (toggleBookmarkOp true true s post now outcome).1.error.isSome = true) := by
  constructor
  · intro s postId voteType outcome hout
    cases outcome with
    | ok => exact absurd rfl hout
    | httpError msg => exact ⟨rfl, rfl, rfl⟩
    | networkError => exact ⟨rfl, rfl, rfl⟩
  · intro s post now outcome hout
    cases outcome with
    | ok => exact absurd rfl hout
    | httpError msg => exact ⟨rfl, rfl, rfl⟩
    | networkError => exact ⟨rfl, rfl, rfl⟩

/-- Witness for `optimistic_rollback_on_failure`: a failed network request
for a vote and for a bookmark toggle, on fresh client state. -/
theorem optimistic_rollback_on_failure_witness :
    (voteOp true true initialVoteState 7 .up .networkError).2 = initialVoteState ∧
    (voteOp true true initialVoteState 7 .up .networkError).1.success = false ∧
    (toggleBookmarkOp true true initialBookmarkState
      ⟨1, "t", "u", 5, 0, "c", "a", "ts", none, none⟩ "now" .networkError).2 =
      initialBookmarkState ∧
    (toggleBookmarkOp true true initialBookmarkState
      ⟨1, "t", "u", 5, 0, "c", "a", "ts", none, none⟩ "now" .networkError).1.success =
      false :=
  ⟨(optimistic_rollback_on_failure.1 initialVoteState 7 .up .networkError (by decide)).1,
   (optimistic_rollback_on_failure.1 initialVoteState 7 .up .networkError (by decide)).2.1,
   (optimistic_rollback_on_failure.2 initialBookmarkState
     ⟨1, "t", "u", 5, 0, "c", "a", "ts", none, none⟩ "now" .networkError (by decide)).1,
   (optimistic_rollback_on_failure.2 initialBookmarkState
     ⟨1, "t", "u", 5, 0, "c", "a", "ts", none, none⟩ "now" .networkError (by decide)).2.1⟩

/-! ## Flat-to-tree comment reconstruction (`buildCommentTree`)

The source builds a map from id to node-with-empty-replies, appends every
comment whose `parentId` is present in the map to that parent's `replies`
(all others become roots), then sorts the roots and, recursively, every
`replies` list by descending score.  With unique ids, a node is reachable
from the roots exactly when its parent chain terminates, and along any
reachable chain no comment repeats, so chains are no longer than the input;
the embedding therefore computes each node's replies recursively with fuel
`input.length`, which is equivalent for every reachable node.  JS
`Array.prototype.sort` (stable) is embedded as a stable insertion sort with
the source's comparator `(a, b) => b.score - a.score`. -/

/-- A flat comment as consumed by `buildCommentTree`. -/
structure FlatComment where
  id : Nat
  parentId : Option Nat
  depth : Nat
  score : Int
  author : String
  content : String
  timestamp : String
deriving DecidableEq, Repr

/-- A node of the nested comment tree (`{ ...comment, replies: [] }` filled
in by the builder). -/
inductive CommentNode where
  | mk (id : Nat) (parentId : Option Nat) (depth : Nat) (score : Int)
      (author content timestamp : String) (replies : List CommentNode) : CommentNode
deriving Repr

def CommentNode.nid : CommentNode → Nat
  | .mk i _ _ _ _ _ _ _ => i

def CommentNode.nparentId : CommentNode → Option Nat
  | .mk _ p _ _ _ _ _ _ => p

def CommentNode.ndepth : CommentNode → Nat
  | .mk _ _ d _ _ _ _ _ => d

def CommentNode.nscore : CommentNode → Int
  | .mk _ _ _ s _ _ _ _ => s

def CommentNode.nreplies : CommentNode → List CommentNode
  | .mk _ _ _ _ _ _ _ r => r

/-- Stable insertion of a node into a score-descending list: the node goes
after every earlier node with a greater-or-equal score (JS stable sort with
comparator `(a, b) => b.score - a.score`). -/
def insertByScore (x : CommentNode) : List CommentNode → List CommentNode
  | [] => [x]
  | y :: rest => if y.nscore < x.nscore then x :: y :: rest else y :: insertByScore x rest

/-- Stable sort by descending score. -/
def sortByScoreDesc (l : List CommentNode) : List CommentNode :=
  l.foldr insertByScore []

/-- The comments appended to the `replies` of the node with id `pid`
(in input order). -/
def childrenOf (input : List FlatComment) (pid : Nat) : List FlatComment :=
  input.filter (fun c => decide (c.parentId = some pid))

/-- Whether a comment lands in `rootComments`: its `parentId` is absent or
not among the input ids (the source's `depth === 1` and catch-all branches
both push to the roots). -/
def isRoot (input : List FlatComment) (c : FlatComment) : Bool :=
  match c.parentId with
  | none => true
  | some p => !((input.map FlatComment.id).contains p)

/-- Build the node for one comment, recursively collecting and
score-sorting its replies; `fuel` bounds the recursion depth (the
JavaScript original terminates on every chain reachable from a root
because, with unique ids, such chains never repeat a comment). -/
def buildNode (fuel : Nat) (input : List FlatComment) (c : FlatComment) : CommentNode :=
  match fuel with
  | 0 => .mk c.id c.parentId c.depth c.score c.author c.content c.timestamp []
  | fuel + 1 =>
    .mk c.id c.parentId c.depth c.score c.author c.content c.timestamp
      (sortByScoreDesc ((childrenOf input c.id).map (fun d => buildNode fuel input d)))

/-- `buildCommentTree`: assemble the forest and sort roots and replies by
descending score. -/
def buildCommentTree (input : List FlatComment) : List CommentNode :=
  sortByScoreDesc ((input.filter (fun c => isRoot input c)).map
    (fun c => buildNode input.length input c))

/-- Total number of nodes in a forest. -/
def nodeCountList : List CommentNode → Nat
  | [] => 0
  | .mk _ _ _ _ _ _ _ replies :: rest => 1 + nodeCountList replies + nodeCountList rest

/-- Number of nodes in one tree. -/
def nodeCount (n : CommentNode) : Nat :=
  nodeCountList [n]

/-- Spec-side size of the fueled expansion of one comment. -/
def subtreeSizeF (fuel : Nat) (input : List FlatComment) (c : FlatComment) : Nat :=
  match fuel with
  | 0 => 1
  | fuel + 1 => 1 + ((childrenOf input c.id).map (fun d => subtreeSizeF fuel input d)).sum

/-- Spec-side number of occurrences of the comment `t` in the fueled
expansion of `c`. -/
def occCount (fuel : Nat) (input : List FlatComment) (c t : FlatComment) : Nat :=
  match fuel with
  | 0 => if c = t then 1 else 0
  | fuel + 1 =>
    (if c = t then 1 else 0) +
      ((childrenOf input c.id).map (fun d => occCount fuel input d t)).sum

/-- The input has pairwise-distinct comment ids. -/
def uniqueIds (input : List FlatComment) : Prop :=
  (input.map FlatComment.id).Nodup

/-- Parent links are depth-consistent: a comment is strictly deeper than
its in-input parent (true of the upstream path-addressed data; it rules
out parent cycles). -/
def rankOK (input : List FlatComment) : Prop :=
  ∀ c ∈ input, ∀ p ∈ input, c.parentId = some p.id → p.depth < c.depth

/-- Number of input comments strictly deeper than `c`. -/
def aboveCount (input : List FlatComment) (c : FlatComment) : Nat :=
  (input.filter (fun d => decide (c.depth < d.depth))).length

/-- The root comments, in input order. -/
def rootsOf (input : List FlatComment) : List FlatComment :=
  input.filter (fun c => isRoot input c)

example : buildCommentTree [] = [] := rfl

example :
    buildCommentTree
      [⟨1, none, 1, 5, "", "", ""⟩, ⟨2, some 1, 2, 3, "", "", ""⟩,
       ⟨3, some 1, 2, 7, "", "", ""⟩] =
    [CommentNode.mk 1 none 1 5 "" "" ""
      [CommentNode.mk 3 (some 1) 2 7 "" "" "" [],
       CommentNode.mk 2 (some 1) 2 3 "" "" "" []]] := rfl

example :
    buildCommentTree
      [⟨1, some 99, 5, 0, "", "", ""⟩, ⟨2, some 3, 0, 0, "", "", ""⟩,
       ⟨3, some 2, 0, 0, "", "", ""⟩] =
    [CommentNode.mk 1 (some 99) 5 0 "" "" "" []] := rfl

/-- Counterexample to C3 as stated, on a three-comment input with unique
ids: comment 1 is an orphan carrying input depth 5, and comments 2 and 3
form a parent cycle.  The output surfaces only the orphan as a root — its
`depth` field stays 5 although it has 0 ancestors in the output tree
(depth is carried from the input, never recomputed), and only 1 of the 3
input comments is reachable from the roots (the cycle is silently
dropped), so the node-conservation clause fails as well. -/
theorem buildCommentTree_claim_counterexample :
    uniqueIds [⟨1, some 99, 5, 0, "", "", ""⟩, ⟨2, some 3, 0, 0, "", "", ""⟩,
      ⟨3, some 2, 0, 0, "", "", ""⟩] ∧
    buildCommentTree [⟨1, some 99, 5, 0, "", "", ""⟩, ⟨2, some 3, 0, 0, "", "", ""⟩,
      ⟨3, some 2, 0, 0, "", "", ""⟩] = [CommentNode.mk 1 (some 99) 5 0 "" "" "" []] ∧
    nodeCountList (buildCommentTree [⟨1, some 99, 5, 0, "", "", ""⟩,
      ⟨2, some 3, 0, 0, "", "", ""⟩, ⟨3, some 2, 0, 0, "", "", ""⟩]) = 1 ∧
    ([⟨1, some 99, 5, 0, "", "", ""⟩, ⟨2, some 3, 0, 0, "", "", ""⟩,
      (⟨3, some 2, 0, 0, "", "", ""⟩ : FlatComment)]).length = 3 ∧
    (CommentNode.mk 1 (some 99) 5 0 "" "" "" []).ndepth = 5 := by
  refine ⟨?_, rfl, ?_, rfl, rfl⟩
  · unfold uniqueIds
    decide
  · rw [show buildCommentTree [⟨1, some 99, 5, 0, "", "", ""⟩,
      ⟨2, some 3, 0, 0, "", "", ""⟩, ⟨3, some 2, 0, 0, "", "", ""⟩] =
      [CommentNode.mk 1 (some 99) 5 0 "" "" "" []] from rfl]
    simp [nodeCountList]

/-! ### Sorting lemmas -/

theorem mem_insertByScore (x w : CommentNode) (l : List CommentNode)
    (h : w ∈ insertByScore x l) : w = x ∨ w ∈ l := by
  induction l with
  | nil =>
    simp only [insertByScore, List.mem_singleton] at h
    exact Or.inl h
  | cons y rest ih =>
    simp only [insertByScore] at h
    by_cases hc : y.nscore < x.nscore
    · rw [if_pos hc] at h
      simp only [List.mem_cons] at h
      rcases h with h | h | h
      · exact Or.inl h
      · exact Or.inr (by simp [h])
      · exact Or.inr (by simp [h])
    · rw [if_neg hc] at h
      simp only [List.mem_cons] at h
      rcases h with h | h
      · exact Or.inr (by simp [h])
      · rcases ih h with h' | h'
        · exact Or.inl h'
        · exact Or.inr (by simp [h'])

theorem pairwise_insertByScore (x : CommentNode) (l : List CommentNode)
    (h : l.Pairwise (fun a b => b.nscore ≤ a.nscore)) :
    (insertByScore x l).Pairwise (fun a b => b.nscore ≤ a.nscore) := by
  induction l with
  | nil => simp [insertByScore]
  | cons y rest ih =>
    rw [List.pairwise_cons] at h
    simp only [insertByScore]
    by_cases hc : y.nscore < x.nscore
    · rw [if_pos hc]
      rw [List.pairwise_cons]
      constructor
      · intro w hw
        simp only [List.mem_cons] at hw
        rcases hw with hw | hw
        · rw [hw]
          omega
        · have := h.1 w hw
          omega
      · exact List.pairwise_cons.mpr h
    · rw [if_neg hc]
      rw [List.pairwise_cons]
      constructor
      · intro w hw
        rcases mem_insertByScore x w rest hw with hw' | hw'
        · rw [hw']
          omega
        · exact h.1 w hw'
      · exact ih h.2

theorem sortByScoreDesc_pairwise (l : List CommentNode) :
    (sortByScoreDesc l).Pairwise (fun a b => b.nscore ≤ a.nscore) := by
  induction l with
  | nil => simp [sortByScoreDesc]
  | cons x rest ih =>
    exact pairwise_insertByScore x (sortByScoreDesc rest) ih

theorem insertByScore_perm (x : CommentNode) (l : List CommentNode) :
    List.Perm (insertByScore x l) (x :: l) := by
  induction l with
  | nil => exact List.Perm.refl _
  | cons y rest ih =>
    simp only [insertByScore]
    by_cases hc : y.nscore < x.nscore
    · rw [if_pos hc]
    · rw [if_neg hc]
      exact (List.Perm.cons y ih).trans (List.Perm.swap x y rest)

theorem sortByScoreDesc_perm (l : List CommentNode) :
    List.Perm (sortByScoreDesc l) l := by
  induction l with
  | nil => exact List.Perm.refl _
  | cons x rest ih =>
    exact (insertByScore_perm x (sortByScoreDesc rest)).trans (List.Perm.cons x ih)

/-! ### Node counting -/

theorem nodeCountList_nil : nodeCountList [] = 0 := by
  simp [nodeCountList]

theorem nodeCountList_cons_mk (i : Nat) (p : Option Nat) (d : Nat) (s : Int)
    (a co ts : String) (replies rest : List CommentNode) :
    nodeCountList (.mk i p d s a co ts replies :: rest) =
      1 + nodeCountList replies + nodeCountList rest := by
  simp [nodeCountList]

theorem nodeCount_mk (i : Nat) (p : Option Nat) (d : Nat) (s : Int)
    (a co ts : String) (replies : List CommentNode) :
    nodeCount (.mk i p d s a co ts replies) = 1 + nodeCountList replies := by
  rw [show nodeCount (.mk i p d s a co ts replies) =
    nodeCountList [.mk i p d s a co ts replies] from rfl]
  rw [nodeCountList_cons_mk, nodeCountList_nil]
  omega

theorem nodeCountList_cons (x : CommentNode) (l : List CommentNode) :
    nodeCountList (x :: l) = nodeCount x + nodeCountList l := by
  cases x with
  | mk i p d s a co ts replies =>
    rw [nodeCountList_cons_mk, nodeCount_mk]

theorem nodeCountList_eq_sum (l : List CommentNode) :
    nodeCountList l = (l.map nodeCount).sum := by
  induction l with
  | nil => rw [nodeCountList_nil]; rfl
  | cons x rest ih =>
    rw [nodeCountList_cons, List.map_cons, List.sum_cons, ih]

theorem nodeCountList_perm (l1 l2 : List CommentNode) (h : List.Perm l1 l2) :
    nodeCountList l1 = nodeCountList l2 := by
  rw [nodeCountList_eq_sum, nodeCountList_eq_sum]
  exact (h.map nodeCount).sum_eq

theorem nodeCount_buildNode (fuel : Nat) :
    ∀ (input : List FlatComment) (c : FlatComment),
      nodeCount (buildNode fuel input c) = subtreeSizeF fuel input c := by
  induction fuel with
  | zero =>
    intro input c
    rw [show buildNode 0 input c =
      .mk c.id c.parentId c.depth c.score c.author c.content c.timestamp [] from rfl]
    rw [nodeCount_mk, nodeCountList_nil]
    rfl
  | succ fuel ih =>
    intro input c
    have h1 : nodeCount (buildNode (fuel + 1) input c) =
        1 + nodeCountList (sortByScoreDesc
          ((childrenOf input c.id).map (fun d => buildNode fuel input d))) := by
      rw [show buildNode (fuel + 1) input c =
        .mk c.id c.parentId c.depth c.score c.author c.content c.timestamp
          (sortByScoreDesc ((childrenOf input c.id).map (fun d => buildNode fuel input d)))
        from rfl]
      rw [nodeCount_mk]
    rw [h1]
    rw [nodeCountList_perm _ _ (sortByScoreDesc_perm _)]
    rw [nodeCountList_eq_sum, List.map_map]
    have h2 : ((childrenOf input c.id).map (nodeCount ∘ fun d => buildNode fuel input d)) =
        (childrenOf input c.id).map (fun d => subtreeSizeF fuel input d) := by
      apply List.map_congr_left
      intro d _
      exact ih input d
    rw [h2]
    rfl

instance (input : List FlatComment) : Decidable (uniqueIds input) :=
  inferInstanceAs (Decidable ((input.map FlatComment.id).Nodup))

instance (input : List FlatComment) : Decidable (rankOK input) :=
  inferInstanceAs (Decidable (∀ c ∈ input, ∀ p ∈ input, c.parentId = some p.id →
    p.depth < c.depth))

/-! ### The `aboveCount` measure -/

theorem length_filter_le_of_imp {α : Type} (l : List α) (p q : α → Bool)
    (h : ∀ x ∈ l, p x = true → q x = true) :
    (l.filter p).length ≤ (l.filter q).length := by
  induction l with
  | nil => exact Nat.le_refl 0
  | cons a rest ih =>
    have ih' := ih (fun x hx => h x (List.mem_cons_of_mem a hx))
    by_cases hp : p a
    · have hq : q a = true := h a (List.mem_cons_self a rest) hp
      simp only [List.filter, hp, hq, List.length_cons]
      omega
    · have hp' : p a = false := Bool.of_not_eq_true hp
      simp only [List.filter, hp']
      by_cases hq : q a
      · simp only [hq, List.length_cons]
        omega
      · have hq' : q a = false := Bool.of_not_eq_true hq
        simp only [hq']
        exact ih'

theorem length_filter_lt_of_witness {α : Type} (l : List α) (p q : α → Bool)
    (h : ∀ x ∈ l, p x = true → q x = true)
    (w : α) (hw : w ∈ l) (hwq : q w = true) (hwp : p w = false) :
    (l.filter p).length < (l.filter q).length := by
  induction l with
  | nil => exact absurd hw (List.not_mem_nil w)
  | cons a rest ih =>
    have himp : ∀ x ∈ rest, p x = true → q x = true :=
      fun x hx => h x (List.mem_cons_of_mem a hx)
    rcases List.mem_cons.mp hw with hwa | hwrest
    · subst hwa
      simp only [List.filter, hwp, hwq]
      have := length_filter_le_of_imp rest p q himp
      simp only [List.length_cons]
      omega
    · have ih' := ih himp hwrest
      by_cases hp : p a
      · have hq : q a = true := h a (List.mem_cons_self a rest) hp
        simp only [List.filter, hp, hq, List.length_cons]
        omega
      · have hp' : p a = false := Bool.of_not_eq_true hp
        simp only [List.filter, hp']
        by_cases hq : q a
        · simp only [hq, List.length_cons]
          omega
        · have hq' : q a = false := Bool.of_not_eq_true hq
          simp only [hq']
          exact ih'

theorem mem_childrenOf (input : List FlatComment) (pid : Nat) (d : FlatComment) :
    d ∈ childrenOf input pid ↔ d ∈ input ∧ d.parentId = some pid := by
  simp [childrenOf, List.mem_filter]

theorem child_depth_gt (input : List FlatComment) (hrank : rankOK input)
    (c : FlatComment) (hc : c ∈ input) (d : FlatComment)
    (hd : d ∈ childrenOf input c.id) : c.depth < d.depth := by
  rcases (mem_childrenOf input c.id d).mp hd with ⟨hdin, hdp⟩
  exact hrank d hdin c hc hdp

theorem aboveCount_child_lt (input : List FlatComment) (hrank : rankOK input)
    (c : FlatComment) (hc : c ∈ input) (d : FlatComment)
    (hd : d ∈ childrenOf input c.id) :
    aboveCount input d < aboveCount input c := by
  have hdc : c.depth < d.depth := child_depth_gt input hrank c hc d hd
  have hdin : d ∈ input := ((mem_childrenOf input c.id d).mp hd).1
  refine length_filter_lt_of_witness input _ _ ?_ d hdin ?_ ?_
  · intro x _ hx
    have : d.depth < x.depth := of_decide_eq_true hx
    exact decide_eq_true (by omega)
  · exact decide_eq_true hdc
  · exact decide_eq_false (by omega)

theorem aboveCount_lt_length (input : List FlatComment) (c : FlatComment)
    (hc : c ∈ input) : aboveCount input c < input.length := by
  have h := length_filter_lt_of_witness input
    (fun d => decide (c.depth < d.depth)) (fun _ => true)
    (fun x _ _ => rfl) c hc rfl (decide_eq_false (by omega))
  calc aboveCount input c < (input.filter (fun _ => true)).length := h
    _ = input.length := by simp

/-! ### Occurrence counting in the fueled expansion -/

theorem occCount_eq_zero_of_depth_le (input : List FlatComment) (hrank : rankOK input) :
    ∀ (fuel : Nat) (c : FlatComment), c ∈ input → ∀ t : FlatComment, t ≠ c →
      t.depth ≤ c.depth → occCount fuel input c t = 0 := by
  intro fuel
  induction fuel with
  | zero =>
    intro c _ t hne _
    have hct : c ≠ t := fun h => hne h.symm
    simp [occCount, hct]
  | succ fuel ih =>
    intro c hc t hne hdep
    show (if c = t then 1 else 0) +
      ((childrenOf input c.id).map (fun d => occCount fuel input d t)).sum = 0
    rw [if_neg (fun h : c = t => hne h.symm)]
    have hsum : ((childrenOf input c.id).map (fun d => occCount fuel input d t)).sum = 0 := by
      apply List.sum_eq_zero
      intro v hv
      rcases List.mem_map.mp hv with ⟨d, hd, rfl⟩
      have hdd : c.depth < d.depth := child_depth_gt input hrank c hc d hd
      have hdin : d ∈ input := ((mem_childrenOf input c.id d).mp hd).1
      refine ih d hdin t ?_ (by omega)
      intro he
      rw [he] at hdep
      omega
    rw [hsum]

theorem occCount_self_eq_one (input : List FlatComment) (hrank : rankOK input) :
    ∀ (fuel : Nat) (c : FlatComment), c ∈ input → occCount fuel input c c = 1 := by
  intro fuel
  cases fuel with
  | zero =>
    intro c _
    simp [occCount]
  | succ fuel =>
    intro c hc
    show (if c = c then 1 else 0) +
      ((childrenOf input c.id).map (fun d => occCount fuel input d c)).sum = 1
    rw [if_pos rfl]
    have hsum : ((childrenOf input c.id).map (fun d => occCount fuel input d c)).sum = 0 := by
      apply List.sum_eq_zero
      intro v hv
      rcases List.mem_map.mp hv with ⟨d, hd, rfl⟩
      have hdd : c.depth < d.depth := child_depth_gt input hrank c hc d hd
      have hdin : d ∈ input := ((mem_childrenOf input c.id d).mp hd).1
      exact occCount_eq_zero_of_depth_le input hrank fuel d hdin c
        (fun he => by rw [he] at hdd; omega) (by omega)
    rw [hsum]

theorem eq_of_id_eq (input : List FlatComment) (hids : uniqueIds input)
    (x y : FlatComment) (hx : x ∈ input) (hy : y ∈ input) (h : x.id = y.id) : x = y :=
  List.inj_on_of_nodup_map hids hx hy h

theorem occCount_zero_of_parent_zero (input : List FlatComment) (hids : uniqueIds input)
    (t x : FlatComment) (htp : t.parentId = some x.id) (hx : x ∈ input) :
    ∀ (fuel : Nat) (c : FlatComment), c ∈ input → occCount fuel input c x = 0 →
      c ≠ t → occCount fuel input c t = 0 := by
  intro fuel
  induction fuel with
  | zero =>
    intro c _ _ hct
    simp [occCount, hct]
  | succ fuel ih =>
    intro c hc hzero hct
    have hcx : c ≠ x := by
      intro he
      rw [he] at hzero
      show False
      have h1 : occCount (fuel + 1) input x x =
          (if x = x then 1 else 0) +
            ((childrenOf input x.id).map (fun d => occCount fuel input d x)).sum := rfl
      rw [h1, if_pos rfl] at hzero
      omega
    have hzero' : ((childrenOf input c.id).map (fun d => occCount fuel input d x)).sum = 0 := by
      have h1 : occCount (fuel + 1) input c x =
          (if c = x then 1 else 0) +
            ((childrenOf input c.id).map (fun d => occCount fuel input d x)).sum := rfl
      rw [h1, if_neg hcx] at hzero
      omega
    show (if c = t then 1 else 0) +
      ((childrenOf input c.id).map (fun d => occCount fuel input d t)).sum = 0
    rw [if_neg hct]
    have hsum : ((childrenOf input c.id).map (fun d => occCount fuel input d t)).sum = 0 := by
      apply List.sum_eq_zero
      intro v hv
      rcases List.mem_map.mp hv with ⟨d, hd, rfl⟩
      have hdin : d ∈ input := ((mem_childrenOf input c.id d).mp hd).1
      have hdzero : occCount fuel input d x = 0 := by
        rw [List.sum_eq_zero_iff] at hzero'
        exact hzero' _ (List.mem_map.mpr ⟨d, hd, rfl⟩)
      refine ih d hdin hdzero ?_
      intro hdt
      subst hdt
      have := ((mem_childrenOf input c.id d).mp hd).2
      rw [htp] at this
      have hcidx : c.id = x.id := by
        injection this with h'
        exact h'.symm
      exact hcx (eq_of_id_eq input hids c x hc hx hcidx)
    rw [hsum]

theorem occCount_transfer (input : List FlatComment) (hrank : rankOK input)
    (hids : uniqueIds input) (t x : FlatComment) (htp : t.parentId = some x.id)
    (ht : t ∈ input) (hx : x ∈ input) (hdx : x.depth < t.depth) :
    ∀ (fuel : Nat) (c : FlatComment), c ∈ input → aboveCount input c < fuel →
      c ≠ t → occCount fuel input c t = occCount fuel input c x := by
  intro fuel
  induction fuel with
  | zero =>
    intro c _ habove _
    exact absurd habove (Nat.not_lt_zero _)
  | succ fuel ih =>
    intro c hc habove hct
    have hxt : x ≠ t := fun he => by rw [he] at hdx; omega
    by_cases hcx : c = x
    · subst hcx
      have hrhs : occCount (fuel + 1) input c c = 1 :=
        occCount_self_eq_one input hrank (fuel + 1) c hc
      rw [hrhs]
      show (if c = t then 1 else 0) +
        ((childrenOf input c.id).map (fun d => occCount fuel input d t)).sum = 1
      rw [if_neg hct]
      have htchild : t ∈ childrenOf input c.id :=
        (mem_childrenOf input c.id t).mpr ⟨ht, htp⟩
      have hnodupkids : (childrenOf input c.id).Nodup :=
        (List.Nodup.of_map FlatComment.id hids).filter _
      have hperm : List.Perm (childrenOf input c.id)
          (t :: (childrenOf input c.id).erase t) :=
        List.perm_cons_erase htchild
      have hsum : ((childrenOf input c.id).map (fun d => occCount fuel input d t)).sum =
          occCount fuel input t t +
            (((childrenOf input c.id).erase t).map (fun d => occCount fuel input d t)).sum := by
        rw [(hperm.map (fun d => occCount fuel input d t)).sum_eq]
        rfl
      rw [hsum]
      rw [occCount_self_eq_one input hrank fuel t ht]
      have hrest : (((childrenOf input c.id).erase t).map
          (fun d => occCount fuel input d t)).sum = 0 := by
        apply List.sum_eq_zero
        intro v hv
        rcases List.mem_map.mp hv with ⟨d, hd, rfl⟩
        have hdmem : d ∈ childrenOf input c.id := List.mem_of_mem_erase hd
        have hdt : d ≠ t := ((List.Nodup.mem_erase_iff hnodupkids).mp hd).1
        have hdin : d ∈ input := ((mem_childrenOf input c.id d).mp hdmem).1
        have hdd : c.depth < d.depth := child_depth_gt input hrank c hc d hdmem
        have hdx0 : occCount fuel input d c = 0 :=
          occCount_eq_zero_of_depth_le input hrank fuel d hdin c
            (fun he => by rw [he] at hdd; omega) (by omega)
        exact occCount_zero_of_parent_zero input hids t c htp hx fuel d hdin hdx0 hdt
      rw [hrest]
    · show (if c = t then 1 else 0) +
        ((childrenOf input c.id).map (fun d => occCount fuel input d t)).sum =
        (if c = x then 1 else 0) +
          ((childrenOf input c.id).map (fun d => occCount fuel input d x)).sum
      rw [if_neg hct, if_neg hcx]
      have hcong : (childrenOf input c.id).map (fun d => occCount fuel input d t) =
          (childrenOf input c.id).map (fun d => occCount fuel input d x) := by
        apply List.map_congr_left
        intro d hd
        have hdin : d ∈ input := ((mem_childrenOf input c.id d).mp hd).1
        have hdt : d ≠ t := by
          intro hdt
          subst hdt
          have := ((mem_childrenOf input c.id d).mp hd).2
          rw [htp] at this
          have hcidx : c.id = x.id := by
            injection this with h'
            exact h'.symm
          exact hcx (eq_of_id_eq input hids c x hc hx hcidx)
        have habove' : aboveCount input d < fuel := by
          have := aboveCount_child_lt input hrank c hc d hd
          omega
        exact ih d hdin habove' hdt
      rw [hcong]

theorem root_not_child (input : List FlatComment) (t : FlatComment)
    (hroot : isRoot input t = true) (c : FlatComment) (hc : c ∈ input) :
    t ∉ childrenOf input c.id := by
  intro hmem
  have hpt := ((mem_childrenOf input c.id t).mp hmem).2
  have hcontains : (input.map FlatComment.id).contains c.id = true := by
    have : c.id ∈ input.map FlatComment.id := List.mem_map.mpr ⟨c, hc, rfl⟩
    simpa [List.contains, List.elem_iff] using this
  unfold isRoot at hroot
  rw [hpt] at hroot
  have hroot' : (!(List.map FlatComment.id input).contains c.id) = true := hroot
  rw [hcontains] at hroot'
  simp at hroot' 

theorem occCount_root (input : List FlatComment) (t : FlatComment)
    (hroot : isRoot input t = true) :
    ∀ (fuel : Nat) (c : FlatComment), c ∈ input →
      occCount fuel input c t = if c = t then 1 else 0 := by
  intro fuel
  induction fuel with
  | zero =>
    intro c _
    rfl
  | succ fuel ih =>
    intro c hc
    show (if c = t then 1 else 0) +
      ((childrenOf input c.id).map (fun d => occCount fuel input d t)).sum =
      if c = t then 1 else 0
    have hsum : ((childrenOf input c.id).map (fun d => occCount fuel input d t)).sum = 0 := by
      apply List.sum_eq_zero
      intro v hv
      rcases List.mem_map.mp hv with ⟨d, hd, rfl⟩
      have hdin : d ∈ input := ((mem_childrenOf input c.id d).mp hd).1
      rw [ih d hdin]
      rw [if_neg ?_]
      intro hdt
      subst hdt
      exact root_not_child input d hroot c hc hd
    rw [hsum]
    omega

theorem sum_map_ite_count (l : List FlatComment) (t : FlatComment) :
    (l.map (fun c => if c = t then 1 else 0)).sum = l.count t := by
  induction l with
  | nil => rfl
  | cons a rest ih =>
    rw [List.map_cons, List.sum_cons, ih, List.count_cons]
    by_cases h : a = t
    · have hbeq : (a == t) = true := by simp [h]
      rw [if_pos h, hbeq, if_pos rfl]
      omega
    · have hbeq : (a == t) = false := by simp [h]
      rw [if_neg h, hbeq, if_neg (by simp)]
      omega

theorem rootsOf_sub (input : List FlatComment) (c : FlatComment)
    (hc : c ∈ rootsOf input) : c ∈ input :=
  List.mem_of_mem_filter hc

theorem rootsOf_isRoot (input : List FlatComment) (c : FlatComment)
    (hc : c ∈ rootsOf input) : isRoot input c = true :=
  List.of_mem_filter hc

theorem sum_occ_roots (input : List FlatComment) (hrank : rankOK input)
    (hids : uniqueIds input) :
    ∀ t ∈ input, ((rootsOf input).map
      (fun c => occCount input.length input c t)).sum = 1 := by
  have main : ∀ (k : Nat) (t : FlatComment), t ∈ input → t.depth < k →
      ((rootsOf input).map (fun c => occCount input.length input c t)).sum = 1 := by
    intro k
    induction k with
    | zero =>
      intro t _ hk
      exact absurd hk (Nat.not_lt_zero _)
    | succ k ih =>
      intro t ht hk
      cases hroot : isRoot input t with
      | true =>
        have hcong : (rootsOf input).map (fun c => occCount input.length input c t) =
            (rootsOf input).map (fun c => if c = t then 1 else 0) := by
          apply List.map_congr_left
          intro c hc
          exact occCount_root input t hroot input.length c (rootsOf_sub input c hc)
        rw [hcong, sum_map_ite_count]
        have htroots : t ∈ rootsOf input := List.mem_filter.mpr ⟨ht, hroot⟩
        have hnodup : (rootsOf input).Nodup :=
          (List.Nodup.of_map FlatComment.id hids).filter _
        exact List.count_eq_one_of_mem hnodup htroots
      | false =>
        obtain ⟨p, hp⟩ : ∃ p, t.parentId = some p := by
          cases hpt : t.parentId with
          | none =>
            exfalso
            unfold isRoot at hroot
            rw [hpt] at hroot
            exact absurd hroot (by simp)
          | some p => exact ⟨p, rfl⟩
        have hpin : p ∈ input.map FlatComment.id := by
          unfold isRoot at hroot
          rw [hp] at hroot
          have hroot' : (!(List.map FlatComment.id input).contains p) = false := hroot
          have : (List.map FlatComment.id input).contains p = true := by
            cases hcp : (List.map FlatComment.id input).contains p
            · rw [hcp] at hroot'
              exact absurd hroot' (by simp)
            · rfl
          simpa [List.contains, List.elem_iff] using this
        obtain ⟨x, hx, hxid⟩ := List.mem_map.mp hpin
        rw [← hxid] at hp
        have hdx : x.depth < t.depth := hrank t ht x hx hp
        have hihx : ((rootsOf input).map
            (fun c => occCount input.length input c x)).sum = 1 :=
          ih x hx (by omega)
        have hcong : (rootsOf input).map (fun c => occCount input.length input c t) =
            (rootsOf input).map (fun c => occCount input.length input c x) := by
          apply List.map_congr_left
          intro c hc
          have hcin : c ∈ input := rootsOf_sub input c hc
          have hct : c ≠ t := by
            intro hce
            rw [hce] at hc
            rw [rootsOf_isRoot input t hc] at hroot
            exact absurd hroot (by simp)
          exact occCount_transfer input hrank hids t x hp ht hx hdx input.length c
            hcin (aboveCount_lt_length input c hcin) hct
        rw [hcong, hihx]
  intro t ht
  exact main (t.depth + 1) t ht (Nat.lt_succ_self _)

theorem sum_map_add_distrib {α : Type} (l : List α) (f g : α → Nat) :
    (l.map (fun x => f x + g x)).sum = (l.map f).sum + (l.map g).sum := by
  induction l with
  | nil => rfl
  | cons a rest ih =>
    rw [List.map_cons, List.sum_cons, ih, List.map_cons, List.sum_cons,
      List.map_cons, List.sum_cons]
    omega

theorem sum_map_swap {α β : Type} (A : List α) (B : List β) (h : β → α → Nat) :
    (A.map (fun t => (B.map (fun d => h d t)).sum)).sum =
      (B.map (fun d => (A.map (fun t => h d t)).sum)).sum := by
  induction A with
  | nil =>
    symm
    apply List.sum_eq_zero
    intro v hv
    rcases List.mem_map.mp hv with ⟨d, _, rfl⟩
    rfl
  | cons t A' ih =>
    rw [List.map_cons, List.sum_cons, ih, ← sum_map_add_distrib]
    refine congrArg List.sum ?_
    apply List.map_congr_left
    intro d _
    rw [List.map_cons, List.sum_cons]

theorem sum_map_one {α : Type} (l : List α) : (l.map (fun _ => (1 : Nat))).sum = l.length := by
  induction l with
  | nil => rfl
  | cons a rest ih =>
    rw [List.map_cons, List.sum_cons, ih, List.length_cons]
    omega

theorem sum_ite_eq_one (input : List FlatComment) (hids : uniqueIds input)
    (c : FlatComment) (hc : c ∈ input) :
    (input.map (fun t => if c = t then 1 else 0)).sum = 1 := by
  have hflip : input.map (fun t => if c = t then 1 else 0) =
      input.map (fun t => if t = c then 1 else 0) := by
    apply List.map_congr_left
    intro t _
    by_cases h : c = t
    · rw [if_pos h, if_pos h.symm]
    · rw [if_neg h, if_neg (fun he => h he.symm)]
  rw [hflip, sum_map_ite_count]
  exact List.count_eq_one_of_mem (List.Nodup.of_map FlatComment.id hids) hc

theorem subtreeSizeF_eq_sum_occ (input : List FlatComment) (hids : uniqueIds input) :
    ∀ (fuel : Nat) (c : FlatComment), c ∈ input →
      subtreeSizeF fuel input c =
        (input.map (fun t => occCount fuel input c t)).sum := by
  intro fuel
  induction fuel with
  | zero =>
    intro c hc
    show 1 = (input.map (fun t => if c = t then 1 else 0)).sum
    rw [sum_ite_eq_one input hids c hc]
  | succ fuel ih =>
    intro c hc
    show 1 + ((childrenOf input c.id).map (fun d => subtreeSizeF fuel input d)).sum =
      (input.map (fun t => (if c = t then 1 else 0) +
        ((childrenOf input c.id).map (fun d => occCount fuel input d t)).sum)).sum
    rw [sum_map_add_distrib input
      (fun t => if c = t then 1 else 0)
      (fun t => ((childrenOf input c.id).map (fun d => occCount fuel input d t)).sum)]
    rw [sum_ite_eq_one input hids c hc]
    rw [sum_map_swap input (childrenOf input c.id) (fun d t => occCount fuel input d t)]
    have hcong : (childrenOf input c.id).map
        (fun d => (input.map (fun t => occCount fuel input d t)).sum) =
        (childrenOf input c.id).map (fun d => subtreeSizeF fuel input d) := by
      apply List.map_congr_left
      intro d hd
      exact (ih d ((mem_childrenOf input c.id d).mp hd).1).symm
    rw [hcong]

/-- Conservation (under unique ids and depth-consistent parent links): the
output forest of `buildCommentTree` has exactly one node per input comment. -/
theorem buildCommentTree_node_count (input : List FlatComment)
    (hids : uniqueIds input) (hrank : rankOK input) :
    nodeCountList (buildCommentTree input) = input.length := by
  unfold buildCommentTree
  rw [nodeCountList_perm _ _ (sortByScoreDesc_perm _)]
  rw [nodeCountList_eq_sum, List.map_map]
  have h1 : (input.filter (fun c => isRoot input c)).map
      (nodeCount ∘ fun c => buildNode input.length input c) =
      (rootsOf input).map (fun c => subtreeSizeF input.length input c) := by
    apply List.map_congr_left
    intro c _
    exact nodeCount_buildNode input.length input c
  rw [h1]
  have h2 : (rootsOf input).map (fun c => subtreeSizeF input.length input c) =
      (rootsOf input).map
        (fun c => (input.map (fun t => occCount input.length input c t)).sum) := by
    apply List.map_congr_left
    intro c hc
    exact subtreeSizeF_eq_sum_occ input hids input.length c (rootsOf_sub input c hc)
  rw [h2]
  rw [sum_map_swap (rootsOf input) input (fun t c => occCount input.length input c t)]
  have h3 : input.map
      (fun t => ((rootsOf input).map (fun c => occCount input.length input c t)).sum) =
      input.map (fun _ => (1 : Nat)) := by
    apply List.map_congr_left
    intro t ht
    exact sum_occ_roots input hrank hids t ht
  rw [h3, sum_map_one]

/-- Recursive well-formedness: every `replies` list, at every level, is
sorted by descending score. -/
inductive NodeOK : CommentNode → Prop where
  | mk : ∀ (i : Nat) (p : Option Nat) (d : Nat) (s : Int) (a co ts : String)
      (replies : List CommentNode),
      replies.Pairwise (fun x y => y.nscore ≤ x.nscore) →
      (∀ r ∈ replies, NodeOK r) → NodeOK (.mk i p d s a co ts replies)

theorem buildNode_ok (fuel : Nat) :
    ∀ (input : List FlatComment) (c : FlatComment), NodeOK (buildNode fuel input c) := by
  induction fuel with
  | zero =>
    intro input c
    exact NodeOK.mk _ _ _ _ _ _ _ _ List.Pairwise.nil (by intro r hr; simp at hr)
  | succ fuel ih =>
    intro input c
    refine NodeOK.mk _ _ _ _ _ _ _ _ (sortByScoreDesc_pairwise _) ?_
    intro r hr
    have hr' : r ∈ (childrenOf input c.id).map (fun d => buildNode fuel input d) :=
      (sortByScoreDesc_perm _).mem_iff.mp hr
    rcases List.mem_map.mp hr' with ⟨d, _, rfl⟩
    exact ih input d

/-- `n` is a (reflexive-transitive) descendant of `m` along `replies`. -/
inductive Desc : CommentNode → CommentNode → Prop where
  | refl (m : CommentNode) : Desc m m
  | step (n r m : CommentNode) : r ∈ m.nreplies → Desc n r → Desc n m

/-- `n` occurs somewhere in the forest `l`. -/
def InForest (n : CommentNode) (l : List CommentNode) : Prop :=
  ∃ m ∈ l, Desc n m

theorem buildNode_fields (fuel : Nat) (input : List FlatComment) (c : FlatComment) :
    (buildNode fuel input c).nid = c.id ∧ (buildNode fuel input c).ndepth = c.depth ∧
      (buildNode fuel input c).nscore = c.score := by
  cases fuel with
  | zero => exact ⟨rfl, rfl, rfl⟩
  | succ fuel => exact ⟨rfl, rfl, rfl⟩

theorem desc_inv (n m : CommentNode) (h : Desc n m) :
    n = m ∨ ∃ r ∈ m.nreplies, Desc n r := by
  match h with
  | .refl _ => exact Or.inl rfl
  | .step _ r _ hmem hdesc => exact Or.inr ⟨r, hmem, hdesc⟩

theorem desc_buildNode_provenance (fuel : Nat) :
    ∀ (input : List FlatComment) (c : FlatComment) (n : CommentNode), c ∈ input →
      Desc n (buildNode fuel input c) →
      ∃ d ∈ input, n.nid = d.id ∧ n.ndepth = d.depth ∧ n.nscore = d.score := by
  induction fuel with
  | zero =>
    intro input c n hc hdesc
    rcases desc_inv n _ hdesc with hn | ⟨r, hr, hd⟩
    · exact ⟨c, hc, hn ▸ (buildNode_fields 0 input c).1,
        hn ▸ (buildNode_fields 0 input c).2.1, hn ▸ (buildNode_fields 0 input c).2.2⟩
    · exact absurd hr (by simp [buildNode, CommentNode.nreplies])
  | succ fuel ih =>
    intro input c n hc hdesc
    rcases desc_inv n _ hdesc with hn | ⟨r, hr, hd⟩
    · exact ⟨c, hc, hn ▸ (buildNode_fields (fuel + 1) input c).1,
        hn ▸ (buildNode_fields (fuel + 1) input c).2.1,
        hn ▸ (buildNode_fields (fuel + 1) input c).2.2⟩
    · have hr' : r ∈ sortByScoreDesc
          ((childrenOf input c.id).map (fun d => buildNode fuel input d)) := hr
      have hr'' : r ∈ (childrenOf input c.id).map (fun d => buildNode fuel input d) :=
        (sortByScoreDesc_perm _).mem_iff.mp hr'
      rcases List.mem_map.mp hr'' with ⟨d, hdmem, rfl⟩
      exact ih input d _ ((mem_childrenOf input c.id d).mp hdmem).1 hd

/-- C3 (amended).  For `buildCommentTree`: (a) the empty input yields the
empty forest; (b) the root list and, recursively, every `replies` list are
sorted by descending score; (c) every node of the output forest carries the
`id`, `depth` and `score` of some input comment unchanged — in particular
`depth` is the input's depth field, not the recomputed ancestor count; (d)
a comment whose `parentId` is absent from the input ids (or missing) is
surfaced as a root, keeping its input depth; (e) when ids are unique and
parent links are depth-consistent (which excludes parent cycles — cyclic
comments are unreachable from the roots and are silently dropped
otherwise), the total number of nodes reachable from the roots equals the
input count exactly. -/
theorem buildCommentTree_amended :
    (buildCommentTree [] = []) ∧
    (∀ input : List FlatComment,
      (buildCommentTree input).Pairwise (fun a b => b.nscore ≤ a.nscore) ∧
      ∀ m ∈ buildCommentTree input, NodeOK m) ∧
    (∀ (input : List FlatComment) (n : CommentNode), InForest n (buildCommentTree input) →
      ∃ d ∈ input, n.nid = d.id ∧ n.ndepth = d.depth ∧ n.nscore = d.score) ∧
    (∀ (input : List FlatComment) (c : FlatComment), c ∈ input → isRoot input c = true →
      ∃ m ∈ buildCommentTree input, m.nid = c.id ∧ m.ndepth = c.depth) ∧
    (∀ input : List FlatComment, uniqueIds input → rankOK input →
      nodeCountList (buildCommentTree input) = input.length) := by
  refine ⟨rfl, ?_, ?_, ?_, ?_⟩
  · intro input
    refine ⟨sortByScoreDesc_pairwise _, ?_⟩
    intro m hm
    have hm' : m ∈ (input.filter (fun c => isRoot input c)).map
        (fun c => buildNode input.length input c) :=
      (sortByScoreDesc_perm _).mem_iff.mp hm
    rcases List.mem_map.mp hm' with ⟨c, _, rfl⟩
    exact buildNode_ok input.length input c
  · intro input n hn
    rcases hn with ⟨m, hm, hdesc⟩
    have hm' : m ∈ (input.filter (fun c => isRoot input c)).map
        (fun c => buildNode input.length input c) :=
      (sortByScoreDesc_perm _).mem_iff.mp hm
    rcases List.mem_map.mp hm' with ⟨c, hcfil, rfl⟩
    exact desc_buildNode_provenance input.length input c n
      (List.mem_of_mem_filter hcfil) hdesc
  · intro input c hc hroot
    refine ⟨buildNode input.length input c, ?_,
      (buildNode_fields input.length input c).1,
      (buildNode_fields input.length input c).2.1⟩
    have hmem : buildNode input.length input c ∈
        (input.filter (fun c' => isRoot input c')).map
          (fun c' => buildNode input.length input c') :=
      List.mem_map.mpr ⟨c, List.mem_filter.mpr ⟨hc, hroot⟩, rfl⟩
    exact (sortByScoreDesc_perm _).mem_iff.mpr hmem
  · intro input hids hrank
    exact buildCommentTree_node_count input hids hrank

/-- Witness for `buildCommentTree_amended`: the conservation clause on a
concrete three-comment thread (one root with two replies). -/
theorem buildCommentTree_amended_witness :
    nodeCountList (buildCommentTree
      [⟨1, none, 1, 5, "", "", ""⟩, ⟨2, some 1, 2, 3, "", "", ""⟩,
       ⟨3, some 1, 2, 7, "", "", ""⟩]) =
    ([⟨1, none, 1, 5, "", "", ""⟩, ⟨2, some 1, 2, 3, "", "", ""⟩,
      (⟨3, some 1, 2, 7, "", "", ""⟩ : FlatComment)]).length :=
  buildCommentTree_amended.2.2.2.2
    [⟨1, none, 1, 5, "", "", ""⟩, ⟨2, some 1, 2, 3, "", "", ""⟩,
     ⟨3, some 1, 2, 7, "", "", ""⟩] (by decide) (by decide)
